import Mathlib

/-!
Verification of the synology-chat-claude-bridge context-management layer.

Shallow embedding of the TypeScript sources:
* `src/src/utils/context-estimator.ts` (`ContextEstimator`)
* `src/src/utils/history-summarizer.ts` (`HistorySummarizer`, `InputChunker`)
* `src/src/claude-runner.ts` (`runClaudeMultiChunk`)
* `src/src/context-manager.ts` (`ContextManager`)

Strings are embedded as Lean `String`s (message contents, prompts) or as
`List Char` (the chunker, which indexes into the text by position).
JavaScript numbers that only ever hold non-negative integers are embedded
as `Nat`.  Asynchronous callbacks that can fail are embedded as functions
returning `Except`.  Wall-clock time (`Date.now()`, `toISOString()`) is an
environment input, passed explicitly as `nowMs : Nat` / `nowIso : String`.
Loops without a structural termination measure are embedded with explicit
fuel, returning `Option`; the top-level wrappers pass the same fuel bound
that the corresponding JavaScript loop provably respects whenever it
terminates.
-/

namespace Bridge

/-- Token estimates: `CONTEXT_SOFT_LIMIT` from `context-estimator.ts`. -/
def CONTEXT_SOFT_LIMIT : Nat := 120000

/-- Embeds `CONTEXT_HARD_LIMIT` from `context-estimator.ts`. -/
def CONTEXT_HARD_LIMIT : Nat := 180000

/-- Embeds `CHARS_PER_TOKEN` from `context-estimator.ts`. -/
def CHARS_PER_TOKEN : Nat := 4

namespace ContextEstimator

/-- Embeds `ContextEstimator.estimate`: `if (!text) return 0; return Math.ceil(text.length / 4)`.
`Math.ceil (n / 4)` on a natural `n` is `(n + 3) / 4` in `Nat` division. -/
def estimate (text : String) : Nat :=
  if text = "" then 0 else (text.length + 3) / CHARS_PER_TOKEN

/-- Embeds `ContextEstimator.needsSummarization`: `totalTokens >= CONTEXT_SOFT_LIMIT`. -/
def needsSummarization (totalTokens : Nat) : Bool :=
  totalTokens ≥ CONTEXT_SOFT_LIMIT

/-- Embeds `ContextEstimator.exceedsHardLimit`: `totalTokens >= CONTEXT_HARD_LIMIT`. -/
def exceedsHardLimit (totalTokens : Nat) : Bool :=
  totalTokens ≥ CONTEXT_HARD_LIMIT

end ContextEstimator

/-- Embeds `ContextState` from `types.ts`.  `last_summarization` is an ISO timestamp
string in the source; it is embedded as epoch milliseconds (`Nat`), which is
what the code converts it back to before using it.  The string is nonempty
whenever present, so JavaScript truthiness of the field is `Option.isSome`. -/
structure ContextState where
  estimated_tokens : Nat
  needs_summarization : Bool
  conversation_summary : Option String
  last_summarization : Option Nat
  chunk_count : Option Nat
deriving DecidableEq, Repr

/-- Embeds `SessionData` from `types.ts`. -/
structure SessionData where
  session_id : String
  claude_session_id : Option String
  user_name : String
  created_at : String
  last_activity : String
  message_count : Nat
  context_state : Option ContextState
deriving DecidableEq, Repr

/-- Embeds `ContextEstimator.calculateTotal`:
`(session.context_state?.estimated_tokens || 0) + estimate(newPrompt)`. -/
def ContextEstimator.calculateTotal (session : SessionData) (newPrompt : String) : Nat :=
  (match session.context_state with
   | some cs => cs.estimated_tokens
   | none => 0) + ContextEstimator.estimate newPrompt

namespace HistorySummarizer

/-- Message role (`'user' | 'assistant'`). -/
inductive Role where
  | user
  | assistant
deriving DecidableEq, Repr

/-- Embeds `Message` from `history-summarizer.ts`. -/
structure Message where
  role : Role
  content : String
  timestamp : Option String
deriving DecidableEq, Repr

/-- Embeds `SummarizationResult` from `history-summarizer.ts`. -/
structure SummarizationResult where
  summary : String
  recentMessages : List Message
  originalTokens : Nat
  reducedTokens : Nat
deriving DecidableEq, Repr

/-- Embeds `RECENT_MESSAGE_COUNT` (the kept tail size). -/
def RECENT_MESSAGE_COUNT : Nat := 5

/-- Embeds `MAX_SUMMARIZABLE_MESSAGES`. -/
def MAX_SUMMARIZABLE_MESSAGES : Nat := 20

/-- A summarization callback: `(messages) => Promise<string>`, embedded as a
function that either returns the summary or fails. -/
def Runner : Type := List Message → Except String String

/-- Embeds `defaultClaudeRunner` from `history-summarizer.ts`. -/
def defaultClaudeRunner : Runner := fun messages =>
  let messageCount := messages.length
  let totalChars := messages.foldl (fun sum m => sum + m.content.length) 0
  Except.ok ("Conversation summary: " ++ toString messageCount ++
    " messages exchanged covering approximately " ++ toString totalChars ++
    " characters of discussion.")

/-- Embeds `HistorySummarizer.calculateTotalTokens`: reduce with
`total + estimate(content) + 10`. -/
def calculateTotalTokens (messages : List Message) : Nat :=
  messages.foldl (fun total msg => total + ContextEstimator.estimate msg.content + 10) 0

/-- Embeds `HistorySummarizer.getMessagesToSummarize`.
`slice(startIndex, endIndex)` with `0 ≤ startIndex ≤ endIndex` is
`(drop startIndex).take (endIndex - startIndex)`; `slice(0, -5)` is
`take (length - 5)`. -/
def getMessagesToSummarize (messages : List Message) : List Message :=
  let totalMessages := messages.length
  if totalMessages > MAX_SUMMARIZABLE_MESSAGES then
    let startIndex := totalMessages - MAX_SUMMARIZABLE_MESSAGES
    let endIndex := totalMessages - RECENT_MESSAGE_COUNT
    (messages.drop startIndex).take (endIndex - startIndex)
  else
    messages.take (messages.length - RECENT_MESSAGE_COUNT)

/-- Role label used when formatting messages for the summarization prompt. -/
def roleLabel : Role → String
  | Role.user => "User"
  | Role.assistant => "Assistant"

/-- Embeds `HistorySummarizer.generateSummary`.  The `try/catch` around the callback
is embedded by matching on the callback's `Except` result: an error is caught
and replaced by the fallback summary string. -/
def generateSummary (messages : List Message) (claudeRunner : Runner) : String :=
  if messages.length = 0 then ""
  else
    let formattedMessages :=
      String.intercalate "\n\n"
        (messages.map (fun msg => roleLabel msg.role ++ ": " ++ msg.content))
    let prompt :=
      "Summarize this conversation history concisely, preserving key context, decisions, and any code/technical details mentioned. Keep it under 500 words.\n\n"
        ++ formattedMessages
    match claudeRunner [⟨Role.user, prompt, none⟩] with
    | Except.ok s => s
    | Except.error _ =>
        "Previous conversation: " ++ toString messages.length ++ " messages exchanged."

/-- Embeds `HistorySummarizer.summarize`.  `claudeRunner || defaultClaudeRunner` is
`Option.getD`. -/
def summarize (messages : List Message) (claudeRunner : Option Runner) :
    SummarizationResult :=
  if messages.length = 0 then
    ⟨"", [], 0, 0⟩
  else if messages.length ≤ RECENT_MESSAGE_COUNT then
    let totalTokens := calculateTotalTokens messages
    ⟨"", messages, totalTokens, totalTokens⟩
  else
    let recentMessages := messages.drop (messages.length - RECENT_MESSAGE_COUNT)
    let messagesToSummarize := getMessagesToSummarize messages
    let originalTokens := calculateTotalTokens messages
    let runner := claudeRunner.getD defaultClaudeRunner
    let summary := generateSummary messagesToSummarize runner
    let summaryTokens := ContextEstimator.estimate summary
    let recentTokens := calculateTotalTokens recentMessages
    ⟨summary, recentMessages, originalTokens, summaryTokens + recentTokens⟩

end HistorySummarizer

end Bridge

namespace Bridge

open HistorySummarizer in
/-- A transcript of `n` pairwise distinct test turns, used for concrete
counterexamples: turn `i + 1` has content `"m" ++ toString (i + 1)`. -/
def testTranscript (n : Nat) : List HistorySummarizer.Message :=
  (List.range n).map (fun i =>
    ⟨if i % 2 = 0 then Role.user else Role.assistant, "m" ++ toString (i + 1), none⟩)

/-- A summarization callback that always fails. -/
def failingRunner (e : String) : HistorySummarizer.Runner := fun _ => Except.error e

end Bridge

namespace Bridge

/-- Claim C9: `estimate` is `ceil(length / 4)` (in `Nat`: `(length + 3) / 4`),
hence `estimate "" = 0`, deterministic, monotone in length, and
`estimate "Hello world!" = 3`; `calculateTotal` adds the prior estimate and
the new prompt's estimate; a total of exactly `120000` with soft limit
`120000` classifies as at-or-above-soft. -/
theorem c9_estimator_contract :
    ContextEstimator.estimate "" = 0
    ∧ (∀ t : String, ContextEstimator.estimate t = (t.length + 3) / 4)
    ∧ (∀ s t : String, s.length ≤ t.length →
        ContextEstimator.estimate s ≤ ContextEstimator.estimate t)
    ∧ ContextEstimator.estimate "Hello world!" = 3
    ∧ (∀ (session : SessionData) (newText : String),
        ContextEstimator.calculateTotal session newText =
          (match session.context_state with
           | some cs => cs.estimated_tokens
           | none => 0) + ContextEstimator.estimate newText)
    ∧ ContextEstimator.needsSummarization 120000 = true := by
  refine ⟨rfl, ?_, ?_, by decide, fun _ _ => rfl, by decide⟩
  · intro t
    by_cases h : t = ""
    · subst h; decide
    · simp [ContextEstimator.estimate, h, CHARS_PER_TOKEN]
  · intro s t hle
    by_cases hs : s = ""
    · simp [ContextEstimator.estimate, hs]
    · by_cases ht : t = ""
      · exfalso
        apply hs
        have : t.length = 0 := by simp [ht]
        have hzero : s.length = 0 := Nat.le_antisymm (this ▸ hle) (Nat.zero_le _)
        cases s with
        | mk data =>
          cases data with
          | nil => rfl
          | cons c cs => simp [String.length] at hzero
      · simp only [ContextEstimator.estimate, hs, ht, if_false]
        exact Nat.div_le_div_right (Nat.add_le_add_right hle 3)

/-- Claim C9 witness: the monotonicity component applied at concrete strings. -/
theorem c9_estimator_contract_witness :
    ContextEstimator.estimate "ab" ≤ ContextEstimator.estimate "abcd" :=
  c9_estimator_contract.2.2.1 "ab" "abcd" (by decide)

/-- Claim C8: for transcripts longer than `TAIL_SIZE = 5`, the kept tail returned by
`summarize` is exactly the last 5 turns, unmodified and in order. -/
theorem c8_kept_tail (messages : List HistorySummarizer.Message)
    (runner : Option HistorySummarizer.Runner)
    (h : messages.length > HistorySummarizer.RECENT_MESSAGE_COUNT) :
    (HistorySummarizer.summarize messages runner).recentMessages =
      messages.drop (messages.length - 5) := by
  have h0 : ¬ messages.length = 0 := by
    intro h0
    rw [h0] at h
    exact absurd h (by decide)
  have h5 : ¬ messages.length ≤ HistorySummarizer.RECENT_MESSAGE_COUNT :=
    Nat.not_le.mpr h
  simp only [HistorySummarizer.summarize, h0, h5, if_false]
  rfl

/-- Claim C8 witness: the theorem applied to a concrete 6-turn transcript. -/
theorem c8_kept_tail_witness :
    (HistorySummarizer.summarize (testTranscript 6) none).recentMessages =
      (testTranscript 6).drop 1 :=
  c8_kept_tail (testTranscript 6) none (by decide)

/-- Claim C1 counterexample: for a transcript of exactly 25 turns the window handed
to the summarizer has 15 turns, not 20: it is turns 6–20 (indices 5–19), so
turns 1–5 are discarded — refuting "the summarized window is turns 1–20 and
no turn is discarded". -/
theorem c1_counterexample :
    (HistorySummarizer.getMessagesToSummarize (testTranscript 25)).length = 15
    ∧ HistorySummarizer.getMessagesToSummarize (testTranscript 25) =
        ((testTranscript 25).drop 5).take 15
    ∧ HistorySummarizer.getMessagesToSummarize (testTranscript 25) ≠
        (testTranscript 25).take 20 := by
  refine ⟨by decide, by decide, by decide⟩

/-- Claim C1 amended: for every transcript longer than
`MAX_SUMMARIZABLE_MESSAGES = 20`, the compaction window is exactly the
`20 - 5 = 15` turns at indices `length - 20 .. length - 6`, immediately
preceding the 5-turn kept tail; only turns older than the window are
discarded; and `summarize` hands exactly this window to the summary
generator. -/
theorem c1_compaction_window (messages : List HistorySummarizer.Message)
    (h : messages.length > HistorySummarizer.MAX_SUMMARIZABLE_MESSAGES) :
    HistorySummarizer.getMessagesToSummarize messages =
      (messages.drop (messages.length - 20)).take 15
    ∧ (HistorySummarizer.getMessagesToSummarize messages).length = 15
    ∧ messages.take (messages.length - 20)
        ++ HistorySummarizer.getMessagesToSummarize messages
        ++ messages.drop (messages.length - 5) = messages
    ∧ ∀ runner : HistorySummarizer.Runner,
        (HistorySummarizer.summarize messages (some runner)).summary =
          HistorySummarizer.generateSummary
            (HistorySummarizer.getMessagesToSummarize messages) runner := by
  have h20 : HistorySummarizer.MAX_SUMMARIZABLE_MESSAGES = 20 := rfl
  rw [h20] at h
  have heq : HistorySummarizer.getMessagesToSummarize messages =
      (messages.drop (messages.length - 20)).take 15 := by
    simp only [HistorySummarizer.getMessagesToSummarize,
      HistorySummarizer.MAX_SUMMARIZABLE_MESSAGES,
      HistorySummarizer.RECENT_MESSAGE_COUNT]
    rw [if_pos h]
    congr 1
    omega
  refine ⟨heq, ?_, ?_, ?_⟩
  · rw [heq]
    simp only [List.length_take, List.length_drop]
    omega
  · rw [heq]
    have hdd : messages.drop (messages.length - 5) =
        (messages.drop (messages.length - 20)).drop 15 := by
      rw [List.drop_drop]
      congr 1
      omega
    rw [hdd, List.append_assoc, List.take_append_drop, List.take_append_drop]
  · intro runner
    have h0 : ¬ messages.length = 0 := by omega
    have h5 : ¬ messages.length ≤ HistorySummarizer.RECENT_MESSAGE_COUNT := by
      simp only [HistorySummarizer.RECENT_MESSAGE_COUNT]
      omega
    simp only [HistorySummarizer.summarize, h0, h5, if_false]
    rfl

/-- Claim C1 amended witness: the window-length component at a concrete 21-turn
transcript. -/
theorem c1_compaction_window_witness :
    (HistorySummarizer.getMessagesToSummarize (testTranscript 21)).length = 15 :=
  (c1_compaction_window (testTranscript 21) (by decide)).2.1

/-- Claim C2 counterexample: with a 6-turn transcript and a callback that always
raises, `summarize` returns a normal compacted result whose summary is the
fabricated fallback text — the failure is not propagated to the caller. -/
theorem c2_counterexample :
    (HistorySummarizer.summarize (testTranscript 6)
        (some (failingRunner "boom"))).summary =
      "Previous conversation: 1 messages exchanged."
    ∧ (HistorySummarizer.summarize (testTranscript 6)
        (some (failingRunner "boom"))).recentMessages = (testTranscript 6).drop 1 := by
  refine ⟨by decide, by decide⟩

/-- Claim C2 amended: if the summarizer callback raises, `summarize` does not fail;
`generateSummary` catches the error and substitutes the fallback summary
`"Previous conversation: N messages exchanged."` (N the size of the
compaction window), and `summarize` returns a normal compacted result with
that summary and the unchanged kept tail. -/
theorem c2_callback_failure_fallback (messages : List HistorySummarizer.Message)
    (e : String) (h : messages.length > HistorySummarizer.RECENT_MESSAGE_COUNT) :
    (HistorySummarizer.summarize messages (some (failingRunner e))).summary =
      "Previous conversation: "
        ++ toString (HistorySummarizer.getMessagesToSummarize messages).length
        ++ " messages exchanged."
    ∧ (HistorySummarizer.summarize messages (some (failingRunner e))).recentMessages =
        messages.drop (messages.length - 5) := by
  have h' : messages.length > 5 := h
  have h0 : ¬ messages.length = 0 := by omega
  have hnle : ¬ messages.length ≤ HistorySummarizer.RECENT_MESSAGE_COUNT :=
    Nat.not_le.mpr h
  have hwin : (HistorySummarizer.getMessagesToSummarize messages).length ≠ 0 := by
    simp only [HistorySummarizer.getMessagesToSummarize,
      HistorySummarizer.MAX_SUMMARIZABLE_MESSAGES,
      HistorySummarizer.RECENT_MESSAGE_COUNT] at *
    by_cases h20 : messages.length > 20
    · rw [if_pos h20]
      simp only [List.length_take, List.length_drop]
      omega
    · rw [if_neg h20]
      simp only [List.length_take]
      omega
  constructor
  · simp only [HistorySummarizer.summarize, h0, hnle, if_false]
    simp only [HistorySummarizer.generateSummary, hwin, if_false]
    rfl
  · simp only [HistorySummarizer.summarize, h0, hnle, if_false]
    rfl

/-- Claim C2 amended witness: the fallback-summary component at a concrete 7-turn
transcript (window size 2). -/
theorem c2_callback_failure_fallback_witness :
    (HistorySummarizer.summarize (testTranscript 7)
        (some (failingRunner "x"))).summary =
      "Previous conversation: "
        ++ toString (HistorySummarizer.getMessagesToSummarize (testTranscript 7)).length
        ++ " messages exchanged." :=
  (c2_callback_failure_fallback (testTranscript 7) "x" (by decide)).1

end Bridge

namespace Bridge

namespace InputChunker

/-- Embeds `DEFAULT_MAX_SIZE` from the `InputChunker`. -/
def DEFAULT_MAX_SIZE : Nat := 15000

/-- Embeds `InputChunker.needsChunking`: `text.length > maxSize`. -/
def needsChunking (text : List Char) (maxSize : Nat) : Bool :=
  text.length > maxSize

/-- A fenced code region, `{ start, end }` in the source (`end` is a Lean
keyword, so the field is named `stop`). -/
structure CodeBlock where
  start : Nat
  stop : Nat
deriving DecidableEq, Repr

/-- Embeds JavaScript `text.substring(a, b)`: both indices are clamped to the
string length and swapped when out of order. -/
def jsSubstring (t : List Char) (a b : Nat) : List Char :=
  let a' := min a t.length
  let b' := min b t.length
  (t.drop (min a' b')).take (max a' b' - min a' b')

/-- The backtick character (avoids a literal backtick in the code). -/
def btick : Char := Char.ofNat 96

/-- True when a triple-backtick fence starts at index `i` of `t`. -/
def fenceAt (t : List Char) (i : Nat) : Bool :=
  match t.drop i with
  | c1 :: c2 :: c3 :: _ => c1 == btick && c2 == btick && c3 == btick
  | _ => false

/-- Scan for the first fence at index `≥ i` (fuelled; the scan advances one
position per step, so fuel `t.length + 1` from any start is enough). -/
def findFenceFrom (t : List Char) : Nat → Nat → Option Nat
  | 0, _ => none
  | fuel + 1, i =>
    if fenceAt t i then some i
    else if i < t.length then findFenceFrom t fuel (i + 1)
    else none

/-- First fence at index `≥ i`. -/
def findFence (t : List Char) (i : Nat) : Option Nat :=
  findFenceFrom t (t.length + 1) i

/-- Embeds the repeated `exec` loop of `/\x60\x60\x60[\s\S]*?\x60\x60\x60/g`
in `InputChunker.findCodeBlocks`: a match is the earliest opening fence with
the earliest closing fence at least 3 positions later (lazy body), and the
next search resumes after the match.  If an opening fence has no closing
fence, no later opening can have one either, so the scan ends. -/
def findCodeBlocksAux (t : List Char) : Nat → Nat → List CodeBlock
  | 0, _ => []
  | fuel + 1, pos =>
    match findFence t pos with
    | none => []
    | some s =>
      match findFence t (s + 3) with
      | none => []
      | some e => ⟨s, e + 3⟩ :: findCodeBlocksAux t fuel (e + 3)

/-- Embeds `InputChunker.findCodeBlocks`. -/
def findCodeBlocks (t : List Char) : List CodeBlock :=
  findCodeBlocksAux t (t.length + 1) 0

/-- Embeds `InputChunker.isInsideCodeBlock`:
`codeBlocks.some(cb => position > cb.start && position < cb.end)`. -/
def isInsideCodeBlock (position : Nat) (codeBlocks : List CodeBlock) : Bool :=
  codeBlocks.any (fun cb => decide (cb.start < position) && decide (position < cb.stop))

/-- The JavaScript `\s` character class. -/
def isJsWhitespace (c : Char) : Bool :=
  [9, 10, 11, 12, 13, 32, 160, 5760, 8192, 8193, 8194, 8195, 8196, 8197, 8198,
   8199, 8200, 8201, 8202, 8232, 8233, 8239, 8287, 12288, 65279].contains c.toNat

/-- The three split-point regexes of `findBestSplitPoint`:
paragraph `\n\n`, sentence `[.!?]\s`, line `\n`. -/
inductive SplitPat where
  | para
  | sentence
  | line
deriving DecidableEq, Repr

/-- Length of a match of each pattern (all three are fixed-width). -/
def patLen : SplitPat → Nat
  | SplitPat.para => 2
  | SplitPat.sentence => 2
  | SplitPat.line => 1

/-- Whether the pattern matches `s` at index `i`. -/
def patMatch : SplitPat → List Char → Nat → Bool
  | SplitPat.para, s, i =>
    match s.drop i with
    | c1 :: c2 :: _ => c1 == '\n' && c2 == '\n'
    | _ => false
  | SplitPat.sentence, s, i =>
    match s.drop i with
    | c1 :: c2 :: _ => (c1 == '.' || c1 == '!' || c1 == '?') && isJsWhitespace c2
    | _ => false
  | SplitPat.line, s, i =>
    match s.drop i with
    | c1 :: _ => c1 == '\n'
    | _ => false

/-- Embeds `InputChunker.findLastOccurrence`: the repeated-`exec` loop that
records the index of the final match.  After a match at `i` the search resumes
at `i + patLen` (the regex `lastIndex`); otherwise it advances by one. -/
def findLastOccurrenceAux (p : SplitPat) (s : List Char) :
    Nat → Nat → Option Nat → Option Nat
  | 0, _, lastMatch => lastMatch
  | fuel + 1, i, lastMatch =>
    if s.length ≤ i then lastMatch
    else if patMatch p s i then findLastOccurrenceAux p s fuel (i + patLen p) (some i)
    else findLastOccurrenceAux p s fuel (i + 1) lastMatch

/-- Embeds `InputChunker.findLastOccurrence` (`none` plays the role of `-1`). -/
def findLastOccurrence (p : SplitPat) (s : List Char) : Option Nat :=
  findLastOccurrenceAux p s (s.length + 1) 0 none

/-- Embeds the priority-4 walk-back loop of `findBestSplitPoint`: while the
candidate is strictly after `startPos` and strictly inside a code block, move
it to the start of the block containing it.  The candidate strictly decreases,
so fuel `candidate + 1` covers every terminating run. -/
def walkbackCodeBlock (startPos : Nat) (codeBlocks : List CodeBlock) :
    Nat → Nat → Nat
  | 0, candidateSplit => candidateSplit
  | fuel + 1, candidateSplit =>
    if startPos < candidateSplit ∧ isInsideCodeBlock candidateSplit codeBlocks = true then
      match codeBlocks.find?
          (fun cb => decide (cb.start < candidateSplit) && decide (candidateSplit ≤ cb.stop)) with
      | some cb => walkbackCodeBlock startPos codeBlocks fuel cb.start
      | none => candidateSplit
    else candidateSplit

/-- Priority 4 of `findBestSplitPoint`: hard split at `searchEnd`, walked back
out of any code block. -/
def splitPriority4 (t : List Char) (startPos maxSize : Nat)
    (codeBlocks : List CodeBlock) : Nat :=
  let searchEnd := min (startPos + maxSize) t.length
  walkbackCodeBlock startPos codeBlocks (searchEnd + 1) searchEnd

/-- Priority 3 of `findBestSplitPoint`: split after the last line boundary. -/
def splitPriority3 (t : List Char) (startPos maxSize : Nat)
    (codeBlocks : List CodeBlock) : Nat :=
  let searchEnd := min (startPos + maxSize) t.length
  let searchText := jsSubstring t startPos searchEnd
  match findLastOccurrence SplitPat.line searchText with
  | some lineMatch =>
    let splitPoint := startPos + lineMatch + 1
    if isInsideCodeBlock splitPoint codeBlocks then
      splitPriority4 t startPos maxSize codeBlocks
    else splitPoint
  | none => splitPriority4 t startPos maxSize codeBlocks

/-- Priority 2 of `findBestSplitPoint`: split after the last sentence
boundary. -/
def splitPriority2 (t : List Char) (startPos maxSize : Nat)
    (codeBlocks : List CodeBlock) : Nat :=
  let searchEnd := min (startPos + maxSize) t.length
  let searchText := jsSubstring t startPos searchEnd
  match findLastOccurrence SplitPat.sentence searchText with
  | some sentenceMatch =>
    let splitPoint := startPos + sentenceMatch + 2
    if isInsideCodeBlock splitPoint codeBlocks then
      splitPriority3 t startPos maxSize codeBlocks
    else splitPoint
  | none => splitPriority3 t startPos maxSize codeBlocks

/-- Embeds `InputChunker.findBestSplitPoint` (priority 1: paragraph boundary,
then priorities 2-4). -/
def findBestSplitPoint (t : List Char) (startPos maxSize : Nat)
    (codeBlocks : List CodeBlock) : Nat :=
  let searchEnd := min (startPos + maxSize) t.length
  let searchText := jsSubstring t startPos searchEnd
  match findLastOccurrence SplitPat.para searchText with
  | some paragraphMatch =>
    let splitPoint := startPos + paragraphMatch + 2
    if isInsideCodeBlock splitPoint codeBlocks then
      splitPriority2 t startPos maxSize codeBlocks
    else splitPoint
  | none => splitPriority2 t startPos maxSize codeBlocks

/-- Embeds the `while (currentPosition < text.length)` loop of
`InputChunker.chunk`.  A terminating run of the JavaScript loop visits
pairwise distinct positions in `[0, length)` (the loop state is just the
position, so a repeated position means nontermination), hence takes at most
`length + 1` steps; `none` is returned exactly on the runs where the
JavaScript loop does not terminate. -/
def chunkLoop (t : List Char) (maxChunkSize : Nat) (codeBlocks : List CodeBlock) :
    Nat → Nat → Option (List (List Char))
  | 0, _ => none
  | fuel + 1, currentPosition =>
    if currentPosition < t.length then
      let remainingText := t.drop currentPosition
      if remainingText.length ≤ maxChunkSize then some [remainingText]
      else
        match codeBlocks.find? (fun cb => cb.start == currentPosition) with
        | some cb =>
          (chunkLoop t maxChunkSize codeBlocks fuel cb.stop).map
            (fun rest => jsSubstring t cb.start cb.stop :: rest)
        | none =>
          let splitPoint := findBestSplitPoint t currentPosition maxChunkSize codeBlocks
          (chunkLoop t maxChunkSize codeBlocks fuel splitPoint).map
            (fun rest => jsSubstring t currentPosition splitPoint :: rest)
    else some []

/-- Embeds `InputChunker.chunk` (options passed as explicit arguments; the
source defaults are `maxChunkSize = 15000`, `preserveCodeBlocks = true`). -/
def chunk (text : List Char) (maxChunkSize : Nat) (preserveCodeBlocks : Bool) :
    Option (List (List Char)) :=
  if needsChunking text maxChunkSize = false then some [text]
  else
    let codeBlocks := if preserveCodeBlocks then findCodeBlocks text else []
    chunkLoop text maxChunkSize codeBlocks (text.length + 1) 0

/-- Count of (non-overlapping) triple-backtick fence markers in a chunk,
scanned the way the code-block regex scans them. -/
def fenceMarkerCount (t : List Char) : Nat → Nat → Nat
  | 0, _ => 0
  | fuel + 1, i =>
    if fenceAt t i then 1 + fenceMarkerCount t fuel (i + 3)
    else if i < t.length then fenceMarkerCount t fuel (i + 1)
    else 0

/-- Number of fence markers in `t`. -/
def fenceCount (t : List Char) : Nat :=
  fenceMarkerCount t (t.length + 1) 0

end InputChunker

/-- Embeds `ClaudeRunResult` from `claude-runner.ts`. -/
structure ClaudeRunResult where
  success : Bool
  output : String
  sessionId : Option String
  error : Option String
deriving DecidableEq, Repr

namespace ClaudeRunner

/-- Embeds `if (result.sessionId) currentSessionId = result.sessionId`
(an empty string is falsy). -/
def sessionUpdate (cur : Option String) (r : ClaudeRunResult) : Option String :=
  match r.sessionId with
  | some sid => if sid = "" then cur else some sid
  | none => cur

/-- Embeds `result.error || "Chunk N failed"` (an empty error string is
falsy). -/
def chunkError (r : ClaudeRunResult) (chunkNumber : Nat) : String :=
  match r.error with
  | some e => if e = "" then "Chunk " ++ toString chunkNumber ++ " failed" else e
  | none => "Chunk " ++ toString chunkNumber ++ " failed"

/-- The outputs collected by the multi-chunk loop over chunk indices
`k, k + 1, ..., k + n - 1`, assuming those chunks succeed: each nonempty
output is pushed, empty outputs are skipped. -/
def collectedOutputs (runner : Nat → ClaudeRunResult) : Nat → Nat → List String
  | _, 0 => []
  | k, n + 1 =>
    (if (runner k).output ≠ "" then [(runner k).output] else [])
      ++ collectedOutputs runner (k + 1) n

/-- The session id carried by the loop after processing chunk indices
`k, ..., k + n - 1`. -/
def sessionFold (runner : Nat → ClaudeRunResult) : Option String → Nat → Nat → Option String
  | cur, _, 0 => cur
  | cur, k, n + 1 => sessionFold runner (sessionUpdate cur (runner k)) (k + 1) n

/-- Embeds the `for` loop of `runClaudeMultiChunk`.  The per-chunk executor
invocation (`runClaudeSingle`, which spawns a process) is an environment
input: `runner i` is the settled result of invoking chunk `i`.  The list
argument mirrors the chunks not yet processed; `i` is the index of the next
chunk; `outputs` and `cur` are the accumulators. -/
def mcAux (runner : Nat → ClaudeRunResult) (totalChunks : Nat) :
    List String → Nat → List String → Option String → ClaudeRunResult
  | [], _, outputs, cur =>
    ⟨true, String.intercalate "\n---\n" outputs, cur, none⟩
  | _chunk :: rest, i, outputs, cur =>
    let result := runner i
    let chunkNumber := i + 1
    let outputs' :=
      if result.success = true ∧ result.output ≠ "" then outputs ++ [result.output]
      else outputs
    let cur' := sessionUpdate cur result
    if result.success = true then
      mcAux runner totalChunks rest (i + 1) outputs' cur'
    else
      ⟨false,
       if outputs' = [] then ""
       else String.intercalate "\n---\n" outputs' ++ "\n\n[Error on chunk "
         ++ toString chunkNumber ++ "/" ++ toString totalChunks ++ "]",
       cur', some (chunkError result chunkNumber)⟩

/-- Embeds `runClaudeMultiChunk`. -/
def runClaudeMultiChunk (chunks : List String) (runner : Nat → ClaudeRunResult)
    (initialSessionId : Option String) : ClaudeRunResult :=
  mcAux runner chunks.length chunks 0 [] initialSessionId

end ClaudeRunner

/-- Embeds `ExecuteResult` from `context-manager.ts`. -/
structure ExecuteResult where
  success : Bool
  output : String
  sessionId : Option String
  error : Option String
  contextState : ContextState
deriving DecidableEq, Repr

namespace ContextManager

/-- Embeds `ContextManager.initializeContextState`. -/
def initializeContextState (session : SessionData) : ContextState :=
  match session.context_state with
  | some cs => cs
  | none => ⟨session.message_count * 500, false, none, none, some 0⟩

/-- Embeds `ContextManager.performSummarization` as a state transform.
`Math.floor(estimated_tokens * 0.3)` is embedded as `* 3 / 10` in `Nat`;
the double-precision product agrees with this at every input used in this
development (in particular at `120000`, where both give `36000`).
`new Date().toISOString()` and `Date.now()` are the environment inputs
`nowIso` / `nowMs`. -/
def performSummarization (contextState : ContextState) (nowMs : Nat)
    (nowIso : String) : ContextState :=
  let reducedTokens := contextState.estimated_tokens * 3 / 10
  let summary := "Session summarized at " ++ nowIso
    ++ ". Previous context reduced from " ++ toString contextState.estimated_tokens
    ++ " to " ++ toString reducedTokens ++ " tokens."
  { contextState with
      conversation_summary := some summary
      last_summarization := some nowMs
      estimated_tokens := reducedTokens
      needs_summarization := false }

/-- Steps 1-4 of `ContextManager.execute`: initialize the context state,
size the context, run the (placeholder) summarization when the soft limit is
reached, and bump `chunk_count` when the prompt was chunked into more than
one part. -/
def stateBeforeRun (prompt : String) (session : SessionData) (nowMs : Nat)
    (nowIso : String) : ContextState :=
  let contextState := initializeContextState session
  let newPromptTokens := ContextEstimator.estimate prompt
  let totalTokens := contextState.estimated_tokens + newPromptTokens
  let cs1 :=
    if ContextEstimator.needsSummarization totalTokens then
      performSummarization contextState nowMs nowIso
    else contextState
  let chunksOpt :=
    if InputChunker.needsChunking prompt.toList InputChunker.DEFAULT_MAX_SIZE then
      InputChunker.chunk prompt.toList InputChunker.DEFAULT_MAX_SIZE true
    else none
  match chunksOpt with
  | some chunks =>
    if chunks.length > 1 then
      { cs1 with chunk_count := some (cs1.chunk_count.getD 0 + chunks.length) }
    else cs1
  | none => cs1

/-- Embeds `ContextManager.execute`.  The `runClaude` call is an environment
input: `runOutcome` is `Except.error` when the call throws (the `catch`
branch) and `Except.ok result` when it settles. -/
def execute (prompt : String) (session : SessionData) (nowMs : Nat)
    (nowIso : String) (runOutcome : Except String ClaudeRunResult) : ExecuteResult :=
  let newPromptTokens := ContextEstimator.estimate prompt
  let cs2 := stateBeforeRun prompt session nowMs nowIso
  match runOutcome with
  | Except.error e => ⟨false, "", none, some e, cs2⟩
  | Except.ok result =>
    let cs3 :=
      if result.success = true ∧ result.output ≠ "" then
        let responseTokens := ContextEstimator.estimate result.output
        let newTotal :=
          match cs2.conversation_summary, cs2.last_summarization with
          | some summ, some lastMs =>
            if summ ≠ "" ∧ nowMs - lastMs < 60000 then
              ContextEstimator.estimate summ + newPromptTokens + responseTokens
            else cs2.estimated_tokens + newPromptTokens + responseTokens
          | _, _ => cs2.estimated_tokens + newPromptTokens + responseTokens
        { cs2 with
            estimated_tokens := newTotal
            needs_summarization := ContextEstimator.needsSummarization newTotal }
      else cs2
    ⟨result.success, result.output, result.sessionId, result.error, cs3⟩

end ContextManager

end Bridge

namespace Bridge

/-- A session record with the given optional context state and message count
(the remaining fields are irrelevant to context management). -/
def mkSession (cs : Option ContextState) (mc : Nat) : SessionData :=
  ⟨"session", none, "user", "", "", mc, cs⟩

/-- Claim C10: for a session without a `context_state`, the state is
initialized to `message_count * 500` estimated tokens, no pending
summarization, and zero chunk count; a fresh session (zero messages) starts
at a zero estimate; and when neither summarization nor chunking triggers,
this initialized state is exactly the state the sizing step produces. -/
theorem c10_initialize_context_state (session : SessionData)
    (h : session.context_state = none) :
    ContextManager.initializeContextState session =
      ⟨session.message_count * 500, false, none, none, some 0⟩
    ∧ (session.message_count = 0 →
        (ContextManager.initializeContextState session).estimated_tokens = 0)
    ∧ (∀ (prompt : String) (nowMs : Nat) (nowIso : String),
        ContextEstimator.needsSummarization
          (session.message_count * 500 + ContextEstimator.estimate prompt) = false →
        prompt.length ≤ InputChunker.DEFAULT_MAX_SIZE →
        ContextManager.stateBeforeRun prompt session nowMs nowIso =
          ⟨session.message_count * 500, false, none, none, some 0⟩) := by
  have hinit : ContextManager.initializeContextState session =
      ⟨session.message_count * 500, false, none, none, some 0⟩ := by
    simp [ContextManager.initializeContextState, h]
  refine ⟨hinit, ?_, ?_⟩
  · intro h0
    rw [hinit, h0]
  · intro prompt nowMs nowIso hns hlen
    have hnc : InputChunker.needsChunking prompt.toList InputChunker.DEFAULT_MAX_SIZE = false := by
      simp only [InputChunker.needsChunking]
      simp only [decide_eq_false_iff_not, not_lt]
      exact hlen
    simp only [ContextManager.stateBeforeRun, hinit, hns, hnc]
    simp

/-- Claim C10 witness: the theorem applied to a fresh session. -/
theorem c10_initialize_context_state_witness :
    ContextManager.initializeContextState (mkSession none 0) =
      ⟨(mkSession none 0).message_count * 500, false, none, none, some 0⟩ :=
  (c10_initialize_context_state (mkSession none 0) rfl).1

/-- Claim C3 (code bug): at the failing input (a session whose estimate is
exactly the soft limit), `ContextManager.execute` takes the summarization
branch, but the branch is the shipped placeholder: it multiplies the
estimate by 0.3 (`120000 → 36000`) and fabricates a summary string, instead
of invoking `HistorySummarizer` and measuring `tokensAfter`. -/
theorem c3_placeholder_summarization :
    ContextEstimator.needsSummarization
      ((ContextManager.initializeContextState
          (mkSession (some ⟨120000, false, none, none, some 0⟩) 0)).estimated_tokens
        + ContextEstimator.estimate "") = true
    ∧ ContextManager.performSummarization ⟨120000, false, none, none, some 0⟩ 0
        "1970-01-01T00:00:00.000Z"
      = ⟨36000, false,
          some "Session summarized at 1970-01-01T00:00:00.000Z. Previous context reduced from 120000 to 36000 tokens.",
          some 0, some 0⟩
    ∧ (ContextManager.execute "" (mkSession (some ⟨120000, false, none, none, some 0⟩) 0)
          0 "1970-01-01T00:00:00.000Z" (Except.ok ⟨true, "", none, none⟩)).contextState
      = ⟨36000, false,
          some "Session summarized at 1970-01-01T00:00:00.000Z. Previous context reduced from 120000 to 36000 tokens.",
          some 0, some 0⟩ := by
  refine ⟨by decide, by decide, by decide⟩

/-- The condition under which the finalize step of `ContextManager.execute`
resets (rather than accumulates) the token estimate: a nonempty conversation
summary whose `last_summarization` timestamp is less than 60000 ms old. -/
def ContextManager.resetCondition (cs : ContextState) (nowMs : Nat) : Prop :=
  ∃ summ lastMs, cs.conversation_summary = some summ
    ∧ cs.last_summarization = some lastMs ∧ summ ≠ "" ∧ nowMs - lastMs < 60000

/-- Claim C5 counterexample: a session whose stored summary is less than a
minute old but where no compaction happens this turn (the total estimate,
101, is far below the soft limit) still gets its estimate reset to
`summary + input + output` tokens (3) instead of the accumulated
`100 + 1 + 1 = 102`. -/
theorem c5_counterexample :
    ContextEstimator.needsSummarization
      ((ContextManager.initializeContextState
          (mkSession (some ⟨100, false, some "SSSS", some 0, some 0⟩) 0)).estimated_tokens
        + ContextEstimator.estimate "aaaa") = false
    ∧ (ContextManager.execute "aaaa" (mkSession (some ⟨100, false, some "SSSS", some 0, some 0⟩) 0)
          0 "Z" (Except.ok ⟨true, "bbbb", none, none⟩)).contextState.estimated_tokens = 3
    ∧ (3 : Nat) ≠ 100 + ContextEstimator.estimate "aaaa" + ContextEstimator.estimate "bbbb" := by
  refine ⟨by decide, by decide, by decide⟩

/-- Claim C5 amended: on a successful execution with nonempty output, the
finalize step adds `estimate(input) + estimate(output)` to the
post-compaction `estimated_tokens`, unless the post-compaction state carries
a nonempty conversation summary whose `last_summarization` is within
60000 ms of now — which always holds when compaction ran this turn — in
which case the estimate is instead reset to
`estimate(summary) + estimate(input) + estimate(output)`.  On success with
empty output, or on failure, the state is returned unchanged. -/
theorem c5_finalize (prompt : String) (session : SessionData) (nowMs : Nat)
    (nowIso : String) (result : ClaudeRunResult) :
    (result.success = true → result.output ≠ "" →
      (∀ summ lastMs,
        (ContextManager.stateBeforeRun prompt session nowMs nowIso).conversation_summary
            = some summ →
        (ContextManager.stateBeforeRun prompt session nowMs nowIso).last_summarization
            = some lastMs →
        summ ≠ "" → nowMs - lastMs < 60000 →
        (ContextManager.execute prompt session nowMs nowIso
            (Except.ok result)).contextState.estimated_tokens =
          ContextEstimator.estimate summ + ContextEstimator.estimate prompt
            + ContextEstimator.estimate result.output)
      ∧ (¬ ContextManager.resetCondition
            (ContextManager.stateBeforeRun prompt session nowMs nowIso) nowMs →
        (ContextManager.execute prompt session nowMs nowIso
            (Except.ok result)).contextState.estimated_tokens =
          (ContextManager.stateBeforeRun prompt session nowMs nowIso).estimated_tokens
            + ContextEstimator.estimate prompt + ContextEstimator.estimate result.output))
    ∧ (result.success = true → result.output = "" →
        (ContextManager.execute prompt session nowMs nowIso
            (Except.ok result)).contextState =
          ContextManager.stateBeforeRun prompt session nowMs nowIso)
    ∧ (result.success = false →
        (ContextManager.execute prompt session nowMs nowIso
            (Except.ok result)).contextState =
          ContextManager.stateBeforeRun prompt session nowMs nowIso)
    ∧ (ContextEstimator.needsSummarization
          ((ContextManager.initializeContextState session).estimated_tokens
            + ContextEstimator.estimate prompt) = true →
        ContextManager.resetCondition
          (ContextManager.stateBeforeRun prompt session nowMs nowIso) nowMs) := by
  refine ⟨?_, ?_, ?_, ?_⟩
  · intro hs ho
    constructor
    · intro summ lastMs hsumm hlast hne hage
      simp only [ContextManager.execute]
      rw [if_pos ⟨hs, ho⟩]
      rw [hsumm, hlast]
      simp only
      rw [if_pos ⟨hne, hage⟩]
    · intro hnot
      simp only [ContextManager.execute]
      rw [if_pos ⟨hs, ho⟩]
      rcases hcs : (ContextManager.stateBeforeRun prompt session nowMs nowIso).conversation_summary
        with _ | summ
        <;> rcases hl : (ContextManager.stateBeforeRun prompt session nowMs nowIso).last_summarization
          with _ | lastMs
        <;> simp only
      rw [if_neg]
      intro hc
      exact hnot ⟨summ, lastMs, hcs, hl, hc.1, hc.2⟩
  · intro hs ho
    simp only [ContextManager.execute]
    rw [if_neg]
    intro hc
    exact hc.2 ho
  · intro hs
    simp only [ContextManager.execute]
    rw [if_neg]
    intro hc
    rw [hs] at hc
    exact Bool.false_ne_true hc.1
  · intro hneeds
    simp only [ContextManager.stateBeforeRun, hneeds, if_true]
    set ps := ContextManager.performSummarization
      (ContextManager.initializeContextState session) nowMs nowIso with hps
    have hsumm : ps.conversation_summary = some ("Session summarized at " ++ nowIso
        ++ ". Previous context reduced from "
        ++ toString (ContextManager.initializeContextState session).estimated_tokens
        ++ " to "
        ++ toString ((ContextManager.initializeContextState session).estimated_tokens * 3 / 10)
        ++ " tokens.") := by
      rw [hps]
      rfl
    have hlast : ps.last_summarization = some nowMs := by
      rw [hps]
      rfl
    have hne : ("Session summarized at " ++ nowIso
        ++ ". Previous context reduced from "
        ++ toString (ContextManager.initializeContextState session).estimated_tokens
        ++ " to "
        ++ toString ((ContextManager.initializeContextState session).estimated_tokens * 3 / 10)
        ++ " tokens.") ≠ "" := by
      intro hcontra
      have := congrArg String.length hcontra
      simp [String.length_append] at this
      exact absurd this.1.1.1.1.1.1 (by decide)
    split
    · split
      · exact ⟨_, nowMs, hsumm, hlast, hne, by omega⟩
      · exact ⟨_, nowMs, hsumm, hlast, hne, by omega⟩
    · exact ⟨_, nowMs, hsumm, hlast, hne, by omega⟩

/-- Claim C5 amended witness: the accumulate branch at a fresh session. -/
theorem c5_finalize_witness :
    (ContextManager.execute "aaaa" (mkSession none 0) 0 "Z"
        (Except.ok ⟨true, "bb", none, none⟩)).contextState.estimated_tokens =
      (ContextManager.stateBeforeRun "aaaa" (mkSession none 0) 0 "Z").estimated_tokens
        + ContextEstimator.estimate "aaaa" + ContextEstimator.estimate "bb" :=
  ((c5_finalize "aaaa" (mkSession none 0) 0 "Z" ⟨true, "bb", none, none⟩).1 rfl
      (by decide)).2
    (by
      rintro ⟨s, l, hs, _⟩
      have hnone : (ContextManager.stateBeforeRun "aaaa" (mkSession none 0) 0
          "Z").conversation_summary = none := by decide
      rw [hnone] at hs
      exact Option.noConfusion hs)

end Bridge

namespace Bridge

/-- Helper: `collectedOutputs` only depends on the runner's values at the
indices it scans. -/
theorem collectedOutputs_congr (runner runner' : Nat → ClaudeRunResult) :
    ∀ (n k : Nat), (∀ j, k ≤ j → j < k + n → runner' j = runner j) →
      ClaudeRunner.collectedOutputs runner' k n = ClaudeRunner.collectedOutputs runner k n := by
  intro n
  induction n with
  | zero => intro k _; rfl
  | succ m ih =>
    intro k hagree
    simp only [ClaudeRunner.collectedOutputs]
    rw [hagree k le_rfl (by omega), ih (k + 1) (fun j hj1 hj2 => hagree j (by omega) (by omega))]

/-- Helper: `sessionFold` only depends on the runner's values at the indices
it scans. -/
theorem sessionFold_congr (runner runner' : Nat → ClaudeRunResult) :
    ∀ (n k : Nat) (cur : Option String),
      (∀ j, k ≤ j → j < k + n → runner' j = runner j) →
      ClaudeRunner.sessionFold runner' cur k n = ClaudeRunner.sessionFold runner cur k n := by
  intro n
  induction n with
  | zero => intro k cur _; rfl
  | succ m ih =>
    intro k cur hagree
    simp only [ClaudeRunner.sessionFold]
    rw [hagree k le_rfl (by omega)]
    exact ih (k + 1) _ (fun j hj1 hj2 => hagree j (by omega) (by omega))

/-- Helper: behaviour of the multi-chunk loop when the first failure among
the remaining chunks is at absolute index `i`. -/
theorem mcAux_first_failure (runner : Nat → ClaudeRunResult) (total i : Nat)
    (hfail : (runner i).success = false) :
    ∀ (rest : List String) (k : Nat) (outputs : List String) (cur : Option String),
      k ≤ i → i < k + rest.length →
      (∀ j, k ≤ j → j < i → (runner j).success = true) →
      ClaudeRunner.mcAux runner total rest k outputs cur =
        ⟨false,
         if outputs ++ ClaudeRunner.collectedOutputs runner k (i - k) = [] then ""
         else String.intercalate "\n---\n"
             (outputs ++ ClaudeRunner.collectedOutputs runner k (i - k))
           ++ "\n\n[Error on chunk " ++ toString (i + 1) ++ "/" ++ toString total ++ "]",
         ClaudeRunner.sessionFold runner cur k (i - k + 1),
         some (ClaudeRunner.chunkError (runner i) (i + 1))⟩ := by
  intro rest
  induction rest with
  | nil =>
    intro k outputs cur hk hi _
    simp only [List.length_nil] at hi
    omega
  | cons c rest ih =>
    intro k outputs cur hk hi hsucc
    by_cases hki : k = i
    · subst hki
      simp only [ClaudeRunner.mcAux, hfail, Bool.false_eq_true, false_and, if_false,
        Nat.sub_self]
      simp only [ClaudeRunner.collectedOutputs, List.append_nil]
      rfl
    · have hklt : k < i := lt_of_le_of_ne hk hki
      have hsk : (runner k).success = true := hsucc k le_rfl hklt
      simp only [ClaudeRunner.mcAux, hsk, eq_self_iff_true, true_and, if_true]
      rw [ih (k + 1)
        (if (runner k).output ≠ "" then outputs ++ [(runner k).output] else outputs)
        (ClaudeRunner.sessionUpdate cur (runner k))
        (by omega) (by simp only [List.length_cons] at hi; omega)
        (fun j hj1 hj2 => hsucc j (by omega) hj2)]
      have hik : i - k = (i - (k + 1)) + 1 := by omega
      have houts : (if (runner k).output ≠ "" then outputs ++ [(runner k).output] else outputs)
          ++ ClaudeRunner.collectedOutputs runner (k + 1) (i - (k + 1)) =
          outputs ++ ClaudeRunner.collectedOutputs runner k (i - k) := by
        rw [hik]
        simp only [ClaudeRunner.collectedOutputs]
        by_cases ho : (runner k).output ≠ ""
        · rw [if_pos ho, if_pos ho, List.append_assoc]
        · rw [if_neg ho, if_neg ho, List.nil_append]
      have hsess : ClaudeRunner.sessionFold runner
          (ClaudeRunner.sessionUpdate cur (runner k)) (k + 1) (i - (k + 1) + 1) =
          ClaudeRunner.sessionFold runner cur k (i - k + 1) := by
        have hik2 : i - k + 1 = (i - (k + 1) + 1) + 1 := by omega
        rw [hik2]
        rfl
      rw [houts, hsess]

/-- A runner whose first chunk fails immediately (used as the C4
counterexample). -/
def c4FailFirstRunner : Nat → ClaudeRunResult := fun i =>
  if i = 0 then ⟨false, "", none, some "E"⟩ else ⟨true, "ok", none, none⟩

/-- Claim C4 counterexample: when the very first chunk of a 2-chunk run
fails, the returned output is the empty string — it does not contain the
promised marker naming the failed chunk's ordinal and the total count. -/
theorem c4_counterexample :
    (ClaudeRunner.runClaudeMultiChunk ["a", "b"] c4FailFirstRunner none).success = false
    ∧ (ClaudeRunner.runClaudeMultiChunk ["a", "b"] c4FailFirstRunner none).output = ""
    ∧ (ClaudeRunner.runClaudeMultiChunk ["a", "b"] c4FailFirstRunner none).output ≠
        "\n\n[Error on chunk 1/2]"
    ∧ (ClaudeRunner.runClaudeMultiChunk ["a", "b"] c4FailFirstRunner none).error = some "E" := by
  refine ⟨by decide, by decide, by decide, by decide⟩

/-- Claim C4 amended: if chunk `i` (0-based) is the first to fail, later
chunks are never consulted (the result is unchanged under any runner that
agrees up to index `i`); the result has `success = false`; its `error` is the
failed chunk's error (or a default naming the 1-based ordinal); its output is
the nonempty outputs of the chunks before the failure joined with the
part-boundary marker followed by `[Error on chunk (i+1)/n]` — except that
when no prior chunk produced output the output is the empty string with no
marker; and the returned session id is the last session id reported by any
chunk up to and including the failed one, defaulting to the initial one. -/
theorem c4_partial_failure (chunks : List String) (runner : Nat → ClaudeRunResult)
    (initialSessionId : Option String) (i : Nat)
    (hi : i < chunks.length)
    (hsucc : ∀ j, j < i → (runner j).success = true)
    (hfail : (runner i).success = false) :
    (ClaudeRunner.runClaudeMultiChunk chunks runner initialSessionId).success = false
    ∧ (ClaudeRunner.runClaudeMultiChunk chunks runner initialSessionId).error =
        some (ClaudeRunner.chunkError (runner i) (i + 1))
    ∧ (ClaudeRunner.runClaudeMultiChunk chunks runner initialSessionId).output =
        (if ClaudeRunner.collectedOutputs runner 0 i = [] then ""
         else String.intercalate "\n---\n" (ClaudeRunner.collectedOutputs runner 0 i)
           ++ "\n\n[Error on chunk " ++ toString (i + 1) ++ "/"
           ++ toString chunks.length ++ "]")
    ∧ (ClaudeRunner.runClaudeMultiChunk chunks runner initialSessionId).sessionId =
        ClaudeRunner.sessionFold runner initialSessionId 0 (i + 1)
    ∧ (∀ runner' : Nat → ClaudeRunResult, (∀ j, j ≤ i → runner' j = runner j) →
        ClaudeRunner.runClaudeMultiChunk chunks runner' initialSessionId =
          ClaudeRunner.runClaudeMultiChunk chunks runner initialSessionId) := by
  have hmain := mcAux_first_failure runner chunks.length i hfail chunks 0 [] initialSessionId
    (Nat.zero_le i) (by omega) (fun j _ hj => hsucc j hj)
  have hi0 : i - 0 = i := by omega
  rw [hi0] at hmain
  simp only [List.nil_append] at hmain
  refine ⟨?_, ?_, ?_, ?_, ?_⟩
  · rw [ClaudeRunner.runClaudeMultiChunk, hmain]
  · rw [ClaudeRunner.runClaudeMultiChunk, hmain]
  · rw [ClaudeRunner.runClaudeMultiChunk, hmain]
  · rw [ClaudeRunner.runClaudeMultiChunk, hmain]
  · intro runner' hagree
    have hfail' : (runner' i).success = false := by rw [hagree i le_rfl, hfail]
    have hmain' := mcAux_first_failure runner' chunks.length i hfail' chunks 0 [] initialSessionId
      (Nat.zero_le i) (by omega)
      (fun j _ hj => by rw [hagree j (by omega)]; exact hsucc j hj)
    rw [hi0] at hmain'
    simp only [List.nil_append] at hmain'
    rw [ClaudeRunner.runClaudeMultiChunk, ClaudeRunner.runClaudeMultiChunk, hmain, hmain']
    rw [collectedOutputs_congr runner runner' i 0 (fun j hj1 hj2 => hagree j (by omega))]
    rw [sessionFold_congr runner runner' (i + 1) 0 initialSessionId
      (fun j hj1 hj2 => hagree j (by omega))]
    rw [hagree i le_rfl]

/-- A 3-chunk runner whose second chunk fails (used as the C4 witness). -/
def c4PartialRunner : Nat → ClaudeRunResult := fun i =>
  if i = 0 then ⟨true, "out1", some "s1", none⟩ else ⟨false, "", none, some "boom"⟩

/-- Claim C4 amended witness: the output component at a concrete 3-chunk run
whose second chunk fails. -/
theorem c4_partial_failure_witness :
    (ClaudeRunner.runClaudeMultiChunk ["a", "b", "c"] c4PartialRunner none).output =
      (if ClaudeRunner.collectedOutputs c4PartialRunner 0 1 = [] then ""
       else String.intercalate "\n---\n" (ClaudeRunner.collectedOutputs c4PartialRunner 0 1)
         ++ "\n\n[Error on chunk " ++ toString (1 + 1) ++ "/"
         ++ toString (["a", "b", "c"] : List String).length ++ "]") :=
  (c4_partial_failure ["a", "b", "c"] c4PartialRunner none 1 (by decide)
      (by decide) (by decide)).2.2.1

end Bridge

namespace Bridge.InputChunker

/-- Helper: appending the following drop to a well-ordered substring
reconstitutes the drop from the lower index. -/
theorem jsSubstring_append_drop (t : List Char) (a b : Nat) (hab : a ≤ b) :
    jsSubstring t a b ++ t.drop b = t.drop a := by
  simp only [jsSubstring]
  by_cases hb : b ≤ t.length
  · have ha : a ≤ t.length := le_trans hab hb
    have ha' : min a t.length = a := min_eq_left ha
    have hb' : min b t.length = b := min_eq_left hb
    rw [ha', hb', min_eq_left hab, max_eq_right hab]
    have hdrop : t.drop b = (t.drop a).drop (b - a) := by
      rw [List.drop_drop]
      congr 1
      omega
    rw [hdrop, List.take_append_drop]
  · have hblen : min b t.length = t.length := min_eq_right (by omega)
    by_cases ha : a ≤ t.length
    · have ha' : min a t.length = a := min_eq_left ha
      rw [ha', hblen, min_eq_left ha, max_eq_right ha]
      have h1 : (t.drop a).take (t.length - a) = t.drop a := by
        have hda : (t.drop a).length = t.length - a := List.length_drop a t
        rw [← hda, List.take_length]
      have h2 : t.drop b = [] := List.drop_eq_nil_of_le (by omega)
      rw [h1, h2, List.append_nil]
    · have ha' : min a t.length = t.length := min_eq_right (by omega)
      rw [ha', hblen, min_self, max_self, Nat.sub_self]
      have h2 : t.drop b = [] := List.drop_eq_nil_of_le (by omega)
      have h3 : t.drop a = [] := List.drop_eq_nil_of_le (by omega)
      rw [h2, h3]
      rfl

/-- Helper: length of a well-ordered, in-range substring. -/
theorem jsSubstring_length (t : List Char) (a b : Nat) (hab : a ≤ b)
    (hb : b ≤ t.length) :
    (jsSubstring t a b).length = b - a := by
  simp only [jsSubstring]
  have ha : a ≤ t.length := le_trans hab hb
  rw [min_eq_left ha, min_eq_left hb, min_eq_left hab, max_eq_right hab]
  rw [List.length_take, List.length_drop]
  omega

/-- Helper: the degenerate substring is empty. -/
theorem jsSubstring_same (t : List Char) (a : Nat) : jsSubstring t a a = [] := by
  simp only [jsSubstring]
  rw [min_self, max_self, Nat.sub_self]
  rfl

/-- Helper: a fence needs three characters. -/
theorem fenceAt_bound (t : List Char) (s : Nat) (h : fenceAt t s = true) :
    s + 3 ≤ t.length := by
  unfold fenceAt at h
  rcases hd : t.drop s with _ | ⟨c1, _ | ⟨c2, _ | ⟨c3, tl⟩⟩⟩ <;> rw [hd] at h
  · exact Bool.noConfusion h
  · exact Bool.noConfusion h
  · exact Bool.noConfusion h
  · have hlen : (t.drop s).length = t.length - s := List.length_drop s t
    rw [hd] at hlen
    simp only [List.length_cons] at hlen
    by_cases hs : s ≤ t.length
    · omega
    · rw [List.drop_eq_nil_of_le (by omega)] at hd
      exact absurd hd (by simp)

/-- Helper: a found fence is at or after the start of the scan. -/
theorem findFenceFrom_some (t : List Char) :
    ∀ (fuel i s : Nat), findFenceFrom t fuel i = some s →
      i ≤ s ∧ fenceAt t s = true := by
  intro fuel
  induction fuel with
  | zero => intro i s h; exact absurd h (by simp [findFenceFrom])
  | succ f ih =>
    intro i s h
    simp only [findFenceFrom] at h
    by_cases hf : fenceAt t i = true
    · rw [if_pos hf] at h
      cases h
      exact ⟨le_rfl, hf⟩
    · rw [if_neg hf] at h
      by_cases hi : i < t.length
      · rw [if_pos hi] at h
        have := ih (i + 1) s h
        exact ⟨by omega, this.2⟩
      · rw [if_neg hi] at h
        exact absurd h (by simp)

/-- Well-formedness of a code-block list relative to a lower bound: blocks are
in order, pairwise separated, at least 6 characters long, and within the
text. -/
def blocksWF (t : List Char) : Nat → List CodeBlock → Prop
  | _, [] => True
  | lo, cb :: rest =>
    lo ≤ cb.start ∧ cb.start + 6 ≤ cb.stop ∧ cb.stop ≤ t.length ∧ blocksWF t cb.stop rest

/-- Helper: the block scanner produces a well-formed list from any start. -/
theorem blocksWF_findCodeBlocksAux (t : List Char) :
    ∀ (fuel pos : Nat), blocksWF t pos (findCodeBlocksAux t fuel pos) := by
  intro fuel
  induction fuel with
  | zero => intro pos; trivial
  | succ f ih =>
    intro pos
    rcases h1 : findFence t pos with _ | s
    · simp only [findCodeBlocksAux, h1]
      trivial
    · rcases h2 : findFence t (s + 3) with _ | e
      · simp only [findCodeBlocksAux, h1, h2]
        trivial
      · simp only [findCodeBlocksAux, h1, h2]
        have hs := findFenceFrom_some t (t.length + 1) pos s h1
        have he := findFenceFrom_some t (t.length + 1) (s + 3) e h2
        have hbound := fenceAt_bound t e he.2
        have he1 : s + 3 ≤ e := he.1
        refine ⟨hs.1, ?_, ?_, ih (e + 3)⟩
        · show s + 6 ≤ e + 3
          omega
        · show e + 3 ≤ t.length
          omega

/-- Helper: the top-level block list is well formed. -/
theorem blocksWF_findCodeBlocks (t : List Char) :
    blocksWF t 0 (findCodeBlocks t) :=
  blocksWF_findCodeBlocksAux t (t.length + 1) 0

/-- Helper: relax the lower bound of a well-formed block list. -/
theorem blocksWF_mono (t : List Char) {lo lo' : Nat} {l : List CodeBlock}
    (h : blocksWF t lo l) (hle : lo' ≤ lo) : blocksWF t lo' l := by
  cases l with
  | nil => trivial
  | cons cb rest => exact ⟨le_trans hle h.1, h.2.1, h.2.2.1, h.2.2.2⟩

/-- Helper: every member of a well-formed list respects the bounds. -/
theorem blocksWF_mem (t : List Char) :
    ∀ {l : List CodeBlock} {lo : Nat}, blocksWF t lo l →
      ∀ cb ∈ l, lo ≤ cb.start ∧ cb.start + 6 ≤ cb.stop ∧ cb.stop ≤ t.length := by
  intro l
  induction l with
  | nil => intro lo _ cb hcb; exact absurd hcb (List.not_mem_nil cb)
  | cons cb0 rest ih =>
    intro lo h cb hcb
    have h1 : lo ≤ cb0.start := h.1
    have h2 : cb0.start + 6 ≤ cb0.stop := h.2.1
    rcases List.mem_cons.mp hcb with heq | hmem
    · subst heq
      exact ⟨h1, h2, h.2.2.1⟩
    · have hfacts := ih h.2.2.2 cb hmem
      have hf1 : cb0.stop ≤ cb.start := hfacts.1
      exact ⟨by omega, hfacts.2.1, hfacts.2.2⟩

/-- Helper: two distinct members of a well-formed list are disjoint. -/
theorem blocksWF_disjoint (t : List Char) :
    ∀ {l : List CodeBlock} {lo : Nat}, blocksWF t lo l →
      ∀ cb ∈ l, ∀ cb' ∈ l, cb ≠ cb' →
        cb.stop ≤ cb'.start ∨ cb'.stop ≤ cb.start := by
  intro l
  induction l with
  | nil => intro lo _ cb hcb; exact absurd hcb (List.not_mem_nil cb)
  | cons cb0 rest ih =>
    intro lo h cb hcb cb' hcb' hne
    rcases List.mem_cons.mp hcb with heq | hmem
    · rcases List.mem_cons.mp hcb' with heq' | hmem'
      · subst heq; subst heq'; exact absurd rfl hne
      · subst heq
        exact Or.inl (blocksWF_mem t h.2.2.2 cb' hmem').1
    · rcases List.mem_cons.mp hcb' with heq' | hmem'
      · subst heq'
        exact Or.inr (blocksWF_mem t h.2.2.2 cb hmem).1
      · exact ih h.2.2.2 cb hmem cb' hmem' hne

/-- Helper: members of a well-formed list have pairwise distinct starts. -/
theorem blocksWF_start_inj (t : List Char) {l : List CodeBlock} {lo : Nat}
    (h : blocksWF t lo l) {cb cb' : CodeBlock} (hcb : cb ∈ l) (hcb' : cb' ∈ l)
    (heq : cb.start = cb'.start) : cb = cb' := by
  by_contra hne
  rcases blocksWF_disjoint t h cb hcb cb' hcb' hne with h1 | h1
  · have := (blocksWF_mem t h cb hcb).2.1
    omega
  · have := (blocksWF_mem t h cb' hcb').2.1
    omega

/-- Helper: unfolding of `isInsideCodeBlock` as an existential. -/
theorem isInside_iff (p : Nat) (l : List CodeBlock) :
    isInsideCodeBlock p l = true ↔ ∃ cb ∈ l, cb.start < p ∧ p < cb.stop := by
  simp [isInsideCodeBlock, List.any_eq_true]

/-- Helper: `isInsideCodeBlock` is false iff no block strictly contains the
position. -/
theorem isInside_eq_false_iff (p : Nat) (l : List CodeBlock) :
    isInsideCodeBlock p l = false ↔ ∀ cb ∈ l, ¬ (cb.start < p ∧ p < cb.stop) := by
  rw [← Bool.not_eq_true, isInside_iff]
  simp

/-- Helper: position 0 is never strictly inside a block. -/
theorem isInside_zero (l : List CodeBlock) : isInsideCodeBlock 0 l = false := by
  rw [isInside_eq_false_iff]
  intro cb _ hc
  omega

/-- Helper: the end of the text is never strictly inside a well-formed
block. -/
theorem isInside_length (t : List Char) {l : List CodeBlock} {lo : Nat}
    (h : blocksWF t lo l) : isInsideCodeBlock t.length l = false := by
  rw [isInside_eq_false_iff]
  intro cb hcb hc
  have := (blocksWF_mem t h cb hcb).2.2
  omega

/-- Helper: the start of a member block is never strictly inside any block of
a well-formed list. -/
theorem isInside_start (t : List Char) {l : List CodeBlock} {lo : Nat}
    (h : blocksWF t lo l) {cb : CodeBlock} (hcb : cb ∈ l) :
    isInsideCodeBlock cb.start l = false := by
  rw [isInside_eq_false_iff]
  intro cb' hcb' hc
  by_cases hne : cb = cb'
  · subst hne
    omega
  · rcases blocksWF_disjoint t h cb hcb cb' hcb' hne with h1 | h1
    · have := (blocksWF_mem t h cb hcb).2.1
      omega
    · omega

/-- Helper: the end of a member block is never strictly inside any block of a
well-formed list. -/
theorem isInside_stop (t : List Char) {l : List CodeBlock} {lo : Nat}
    (h : blocksWF t lo l) {cb : CodeBlock} (hcb : cb ∈ l) :
    isInsideCodeBlock cb.stop l = false := by
  rw [isInside_eq_false_iff]
  intro cb' hcb' hc
  by_cases hne : cb = cb'
  · subst hne
    omega
  · rcases blocksWF_disjoint t h cb hcb cb' hcb' hne with h1 | h1
    · have := (blocksWF_mem t h cb' hcb').2.1
      omega
    · have := (blocksWF_mem t h cb hcb).2.1
      omega

end Bridge.InputChunker

namespace Bridge.InputChunker

/-- Helper: a pattern match fits inside the text. -/
theorem patMatch_bound (p : SplitPat) (s : List Char) (j : Nat)
    (h : patMatch p s j = true) : j + patLen p ≤ s.length := by
  have hlen : (s.drop j).length = s.length - j := List.length_drop j s
  cases p
  case para =>
    simp only [patMatch] at h
    rcases hd : s.drop j with _ | ⟨c1, _ | ⟨c2, tl⟩⟩ <;> rw [hd] at h
    · exact Bool.noConfusion h
    · exact Bool.noConfusion h
    · show j + 2 ≤ s.length
      rw [hd] at hlen
      simp only [List.length_cons] at hlen
      by_cases hs : j ≤ s.length
      · omega
      · rw [List.drop_eq_nil_of_le (by omega)] at hd
        exact absurd hd (by simp)
  case sentence =>
    simp only [patMatch] at h
    rcases hd : s.drop j with _ | ⟨c1, _ | ⟨c2, tl⟩⟩ <;> rw [hd] at h
    · exact Bool.noConfusion h
    · exact Bool.noConfusion h
    · show j + 2 ≤ s.length
      rw [hd] at hlen
      simp only [List.length_cons] at hlen
      by_cases hs : j ≤ s.length
      · omega
      · rw [List.drop_eq_nil_of_le (by omega)] at hd
        exact absurd hd (by simp)
  case line =>
    simp only [patMatch] at h
    rcases hd : s.drop j with _ | ⟨c1, tl⟩ <;> rw [hd] at h
    · exact Bool.noConfusion h
    · show j + 1 ≤ s.length
      rw [hd] at hlen
      simp only [List.length_cons] at hlen
      by_cases hs : j ≤ s.length
      · omega
      · rw [List.drop_eq_nil_of_le (by omega)] at hd
        exact absurd hd (by simp)

/-- Helper: a result of the last-occurrence scan is either the accumulator or
an actual match. -/
theorem findLastOccurrenceAux_some (p : SplitPat) (s : List Char) :
    ∀ (fuel i : Nat) (acc : Option Nat) (j : Nat),
      findLastOccurrenceAux p s fuel i acc = some j →
      acc = some j ∨ patMatch p s j = true := by
  intro fuel
  induction fuel with
  | zero =>
    intro i acc j h
    simp only [findLastOccurrenceAux] at h
    exact Or.inl h
  | succ f ih =>
    intro i acc j h
    simp only [findLastOccurrenceAux] at h
    by_cases h1 : s.length ≤ i
    · rw [if_pos h1] at h
      exact Or.inl h
    · rw [if_neg h1] at h
      by_cases h2 : patMatch p s i = true
      · rw [if_pos h2] at h
        rcases ih (i + patLen p) (some i) j h with hacc | hm
        · injection hacc with hij
          subst hij
          exact Or.inr h2
        · exact Or.inr hm
      · rw [if_neg h2] at h
        exact ih (i + 1) acc j h

/-- Helper: a reported last occurrence is a real match and fits in the
text. -/
theorem findLastOccurrence_some (p : SplitPat) (s : List Char) (j : Nat)
    (h : findLastOccurrence p s = some j) :
    patMatch p s j = true ∧ j + patLen p ≤ s.length := by
  rcases findLastOccurrenceAux_some p s (s.length + 1) 0 none j h with h1 | h1
  · exact absurd h1 (by simp)
  · exact ⟨h1, patMatch_bound p s j h1⟩

/-- Helper: the walk-back never moves forward. -/
theorem walkback_le (startPos : Nat) (cbs : List CodeBlock) :
    ∀ (fuel c : Nat), walkbackCodeBlock startPos cbs fuel c ≤ c := by
  intro fuel
  induction fuel with
  | zero => intro c; exact le_rfl
  | succ f ih =>
    intro c
    simp only [walkbackCodeBlock]
    by_cases hcond : startPos < c ∧ isInsideCodeBlock c cbs = true
    · rw [if_pos hcond]
      rcases hf : cbs.find?
          (fun cb => decide (cb.start < c) && decide (c ≤ cb.stop)) with _ | cb
      · rw [hf]
      · rw [hf]
        have hp := List.find?_some hf
        simp only [Bool.and_eq_true, decide_eq_true_eq] at hp
        exact le_trans (ih cb.start) (le_of_lt hp.1)
    · rw [if_neg hcond]

/-- Helper: a candidate not strictly inside any block is returned as-is. -/
theorem walkback_id (startPos : Nat) (cbs : List CodeBlock) (c : Nat)
    (hin : isInsideCodeBlock c cbs = false) :
    ∀ fuel, walkbackCodeBlock startPos cbs fuel c = c := by
  intro fuel
  cases fuel with
  | zero => rfl
  | succ f =>
    simp only [walkbackCodeBlock]
    rw [if_neg]
    intro hc
    rw [hin] at hc
    exact Bool.false_ne_true hc.2

/-- Helper: with at least one unit of fuel, the walk-back lands strictly
after `startPos`, at or before the candidate, and not strictly inside any
block. -/
theorem walkback_master (t : List Char) (startPos : Nat) (cbs : List CodeBlock)
    (hwf : blocksWF t 0 cbs)
    (hin : isInsideCodeBlock startPos cbs = false)
    (hnf : ∀ cb ∈ cbs, ¬ cb.start = startPos) :
    ∀ (fuel c : Nat), startPos < c → 1 ≤ fuel →
      startPos < walkbackCodeBlock startPos cbs fuel c
      ∧ walkbackCodeBlock startPos cbs fuel c ≤ c
      ∧ isInsideCodeBlock (walkbackCodeBlock startPos cbs fuel c) cbs = false := by
  intro fuel c hc hfuel
  rcases fuel with _ | f
  · omega
  · by_cases hcond : startPos < c ∧ isInsideCodeBlock c cbs = true
    · rcases hf : cbs.find?
          (fun cb => decide (cb.start < c) && decide (c ≤ cb.stop)) with _ | cb
      · exfalso
        rw [List.find?_eq_none] at hf
        rcases (isInside_iff c cbs).mp hcond.2 with ⟨cb, hmem, h1, h2⟩
        have h2' : c ≤ cb.stop := le_of_lt h2
        have := hf cb hmem
        simp [h1, h2'] at this
      · have hp := List.find?_some hf
        simp only [Bool.and_eq_true, decide_eq_true_eq] at hp
        have hmem := List.mem_of_find?_eq_some hf
        have hx := (isInside_eq_false_iff startPos cbs).mp hin cb hmem
        have hy := hnf cb hmem
        have hstart : startPos < cb.start := by
          have hp1 := hp.1
          have hp2 := hp.2
          omega
        have hnotin : isInsideCodeBlock cb.start cbs = false :=
          isInside_start t hwf hmem
        have hval : walkbackCodeBlock startPos cbs (f + 1) c = cb.start := by
          simp only [walkbackCodeBlock]
          rw [if_pos hcond, hf]
          exact walkback_id startPos cbs cb.start hnotin f
        rw [hval]
        exact ⟨hstart, le_of_lt hp.1, hnotin⟩
    · have hval : walkbackCodeBlock startPos cbs (f + 1) c = c := by
        simp only [walkbackCodeBlock]
        rw [if_neg hcond]
      rw [hval]
      have hinc : isInsideCodeBlock c cbs = false := by
        cases hb : isInsideCodeBlock c cbs
        · rfl
        · exact absurd ⟨hc, hb⟩ hcond
      exact ⟨hc, le_rfl, hinc⟩

/-- Helper: specification of priority 4 of the split-point search. -/
theorem splitPriority4_spec (t : List Char) (cbs : List CodeBlock)
    (maxSize pos : Nat)
    (hwf : blocksWF t 0 cbs) (hpos : pos < t.length)
    (hin : isInsideCodeBlock pos cbs = false)
    (hnf : ∀ cb ∈ cbs, ¬ cb.start = pos) :
    pos ≤ splitPriority4 t pos maxSize cbs
    ∧ splitPriority4 t pos maxSize cbs ≤ min (pos + maxSize) t.length
    ∧ isInsideCodeBlock (splitPriority4 t pos maxSize cbs) cbs = false
    ∧ (1 ≤ maxSize → pos < splitPriority4 t pos maxSize cbs) := by
  have hple : pos ≤ min (pos + maxSize) t.length :=
    le_min (by omega) (le_of_lt hpos)
  by_cases hlt : pos < min (pos + maxSize) t.length
  · have h := walkback_master t pos cbs hwf hin hnf
      (min (pos + maxSize) t.length + 1) (min (pos + maxSize) t.length) hlt (by omega)
    exact ⟨le_of_lt h.1, h.2.1, h.2.2, fun _ => h.1⟩
  · have heq : min (pos + maxSize) t.length = pos := by omega
    have hval : splitPriority4 t pos maxSize cbs = pos := by
      simp only [splitPriority4]
      rw [heq]
      exact walkback_id pos cbs pos hin (pos + 1)
    rw [hval]
    refine ⟨le_rfl, hple, hin, ?_⟩
    intro hms
    have hge : pos + 1 ≤ min (pos + maxSize) t.length :=
      le_min (by omega) hpos
    omega

/-- Helper: specification of priority 3 of the split-point search. -/
theorem splitPriority3_spec (t : List Char) (cbs : List CodeBlock)
    (maxSize pos : Nat)
    (hwf : blocksWF t 0 cbs) (hpos : pos < t.length)
    (hin : isInsideCodeBlock pos cbs = false)
    (hnf : ∀ cb ∈ cbs, ¬ cb.start = pos) :
    pos ≤ splitPriority3 t pos maxSize cbs
    ∧ splitPriority3 t pos maxSize cbs ≤ min (pos + maxSize) t.length
    ∧ isInsideCodeBlock (splitPriority3 t pos maxSize cbs) cbs = false
    ∧ (1 ≤ maxSize → pos < splitPriority3 t pos maxSize cbs) := by
  have hple : pos ≤ min (pos + maxSize) t.length :=
    le_min (by omega) (le_of_lt hpos)
  rcases hlo : findLastOccurrence SplitPat.line
      (jsSubstring t pos (min (pos + maxSize) t.length)) with _ | m
  · have hval : splitPriority3 t pos maxSize cbs = splitPriority4 t pos maxSize cbs := by
      simp only [splitPriority3, hlo]
    rw [hval]
    exact splitPriority4_spec t cbs maxSize pos hwf hpos hin hnf
  · by_cases hins : isInsideCodeBlock (pos + m + 1) cbs = true
    · have hval : splitPriority3 t pos maxSize cbs = splitPriority4 t pos maxSize cbs := by
        simp only [splitPriority3, hlo]
        rw [if_pos hins]
      rw [hval]
      exact splitPriority4_spec t cbs maxSize pos hwf hpos hin hnf
    · have hval : splitPriority3 t pos maxSize cbs = pos + m + 1 := by
        simp only [splitPriority3, hlo]
        rw [if_neg hins]
      rw [hval]
      have hocc := findLastOccurrence_some SplitPat.line _ m hlo
      have hbound : m + 1 ≤ (jsSubstring t pos (min (pos + maxSize) t.length)).length :=
        hocc.2
      rw [jsSubstring_length t pos _ hple (min_le_right _ _)] at hbound
      have hnotin : isInsideCodeBlock (pos + m + 1) cbs = false := by
        cases hb : isInsideCodeBlock (pos + m + 1) cbs
        · rfl
        · exact absurd hb hins
      exact ⟨by omega, by omega, hnotin, fun _ => by omega⟩

end Bridge.InputChunker

namespace Bridge.InputChunker

/-- Helper: specification of priority 2 of the split-point search. -/
theorem splitPriority2_spec (t : List Char) (cbs : List CodeBlock)
    (maxSize pos : Nat)
    (hwf : blocksWF t 0 cbs) (hpos : pos < t.length)
    (hin : isInsideCodeBlock pos cbs = false)
    (hnf : ∀ cb ∈ cbs, ¬ cb.start = pos) :
    pos ≤ splitPriority2 t pos maxSize cbs
    ∧ splitPriority2 t pos maxSize cbs ≤ min (pos + maxSize) t.length
    ∧ isInsideCodeBlock (splitPriority2 t pos maxSize cbs) cbs = false
    ∧ (1 ≤ maxSize → pos < splitPriority2 t pos maxSize cbs) := by
  have hple : pos ≤ min (pos + maxSize) t.length :=
    le_min (by omega) (le_of_lt hpos)
  rcases hlo : findLastOccurrence SplitPat.sentence
      (jsSubstring t pos (min (pos + maxSize) t.length)) with _ | m
  · have hval : splitPriority2 t pos maxSize cbs = splitPriority3 t pos maxSize cbs := by
      simp only [splitPriority2, hlo]
    rw [hval]
    exact splitPriority3_spec t cbs maxSize pos hwf hpos hin hnf
  · by_cases hins : isInsideCodeBlock (pos + m + 2) cbs = true
    · have hval : splitPriority2 t pos maxSize cbs = splitPriority3 t pos maxSize cbs := by
        simp only [splitPriority2, hlo]
        rw [if_pos hins]
      rw [hval]
      exact splitPriority3_spec t cbs maxSize pos hwf hpos hin hnf
    · have hval : splitPriority2 t pos maxSize cbs = pos + m + 2 := by
        simp only [splitPriority2, hlo]
        rw [if_neg hins]
      rw [hval]
      have hocc := findLastOccurrence_some SplitPat.sentence _ m hlo
      have hbound : m + 2 ≤ (jsSubstring t pos (min (pos + maxSize) t.length)).length :=
        hocc.2
      rw [jsSubstring_length t pos _ hple (min_le_right _ _)] at hbound
      have hnotin : isInsideCodeBlock (pos + m + 2) cbs = false := by
        cases hb : isInsideCodeBlock (pos + m + 2) cbs
        · rfl
        · exact absurd hb hins
      exact ⟨by omega, by omega, hnotin, fun _ => by omega⟩

/-- Helper: specification of `findBestSplitPoint`: the returned split point
lies in `(pos, min (pos + maxSize) (length t)]` (weakly above `pos` when
`maxSize = 0`) and is never strictly inside a code block. -/
theorem findBestSplitPoint_spec (t : List Char) (cbs : List CodeBlock)
    (maxSize pos : Nat)
    (hwf : blocksWF t 0 cbs) (hpos : pos < t.length)
    (hin : isInsideCodeBlock pos cbs = false)
    (hnf : ∀ cb ∈ cbs, ¬ cb.start = pos) :
    pos ≤ findBestSplitPoint t pos maxSize cbs
    ∧ findBestSplitPoint t pos maxSize cbs ≤ min (pos + maxSize) t.length
    ∧ isInsideCodeBlock (findBestSplitPoint t pos maxSize cbs) cbs = false
    ∧ (1 ≤ maxSize → pos < findBestSplitPoint t pos maxSize cbs) := by
  have hple : pos ≤ min (pos + maxSize) t.length :=
    le_min (by omega) (le_of_lt hpos)
  rcases hlo : findLastOccurrence SplitPat.para
      (jsSubstring t pos (min (pos + maxSize) t.length)) with _ | m
  · have hval : findBestSplitPoint t pos maxSize cbs = splitPriority2 t pos maxSize cbs := by
      simp only [findBestSplitPoint, hlo]
    rw [hval]
    exact splitPriority2_spec t cbs maxSize pos hwf hpos hin hnf
  · by_cases hins : isInsideCodeBlock (pos + m + 2) cbs = true
    · have hval : findBestSplitPoint t pos maxSize cbs = splitPriority2 t pos maxSize cbs := by
        simp only [findBestSplitPoint, hlo]
        rw [if_pos hins]
      rw [hval]
      exact splitPriority2_spec t cbs maxSize pos hwf hpos hin hnf
    · have hval : findBestSplitPoint t pos maxSize cbs = pos + m + 2 := by
        simp only [findBestSplitPoint, hlo]
        rw [if_neg hins]
      rw [hval]
      have hocc := findLastOccurrence_some SplitPat.para _ m hlo
      have hbound : m + 2 ≤ (jsSubstring t pos (min (pos + maxSize) t.length)).length :=
        hocc.2
      rw [jsSubstring_length t pos _ hple (min_le_right _ _)] at hbound
      have hnotin : isInsideCodeBlock (pos + m + 2) cbs = false := by
        cases hb : isInsideCodeBlock (pos + m + 2) cbs
        · rfl
        · exact absurd hb hins
      exact ⟨by omega, by omega, hnotin, fun _ => by omega⟩

/-- Helper: the `find?` miss of the code-block branch yields the
no-block-starts-here premise. -/
theorem find_none_starts (cbs : List CodeBlock) (pos : Nat)
    (hfind : cbs.find? (fun cb => cb.start == pos) = none) :
    ∀ cb ∈ cbs, ¬ cb.start = pos := by
  rw [List.find?_eq_none] at hfind
  intro cb hcb
  have := hfind cb hcb
  simpa using this

/-- Helper: the loop-value equation for the termination branch. -/
theorem chunkLoop_val_done (t : List Char) (ms : Nat) (cbs : List CodeBlock)
    (f pos : Nat) (hpos : ¬ pos < t.length) :
    chunkLoop t ms cbs (f + 1) pos = some [] := by
  simp only [chunkLoop]
  rw [if_neg hpos]

/-- Helper: the loop-value equation for the final-chunk branch. -/
theorem chunkLoop_val_last (t : List Char) (ms : Nat) (cbs : List CodeBlock)
    (f pos : Nat) (hpos : pos < t.length) (hrem : (t.drop pos).length ≤ ms) :
    chunkLoop t ms cbs (f + 1) pos = some [t.drop pos] := by
  simp only [chunkLoop]
  rw [if_pos hpos, if_pos hrem]

/-- Helper: the loop-value equation for the code-block branch. -/
theorem chunkLoop_val_block (t : List Char) (ms : Nat) (cbs : List CodeBlock)
    (f pos : Nat) (cb : CodeBlock) (hpos : pos < t.length)
    (hrem : ¬ (t.drop pos).length ≤ ms)
    (hfind : cbs.find? (fun cb => cb.start == pos) = some cb) :
    chunkLoop t ms cbs (f + 1) pos =
      (chunkLoop t ms cbs f cb.stop).map
        (fun rest => jsSubstring t cb.start cb.stop :: rest) := by
  simp only [chunkLoop]
  rw [if_pos hpos, if_neg hrem, hfind]

/-- Helper: the loop-value equation for the split branch. -/
theorem chunkLoop_val_split (t : List Char) (ms : Nat) (cbs : List CodeBlock)
    (f pos : Nat) (hpos : pos < t.length)
    (hrem : ¬ (t.drop pos).length ≤ ms)
    (hfind : cbs.find? (fun cb => cb.start == pos) = none) :
    chunkLoop t ms cbs (f + 1) pos =
      (chunkLoop t ms cbs f (findBestSplitPoint t pos ms cbs)).map
        (fun rest => jsSubstring t pos (findBestSplitPoint t pos ms cbs) :: rest) := by
  simp only [chunkLoop]
  rw [if_pos hpos, if_neg hrem, hfind]

/-- Helper: concatenating the chunks produced from any loop position
reconstitutes the text from that position on. -/
theorem chunkLoop_concat (t : List Char) (ms : Nat) (cbs : List CodeBlock)
    (hwf : blocksWF t 0 cbs) :
    ∀ (fuel pos : Nat) (cs : List (List Char)),
      isInsideCodeBlock pos cbs = false →
      chunkLoop t ms cbs fuel pos = some cs →
      cs.flatten = t.drop pos := by
  intro fuel
  induction fuel with
  | zero =>
    intro pos cs _ h
    exact absurd h (by simp [chunkLoop])
  | succ f ih =>
    intro pos cs hin h
    by_cases hpos : pos < t.length
    · by_cases hrem : (t.drop pos).length ≤ ms
      · rw [chunkLoop_val_last t ms cbs f pos hpos hrem] at h
        injection h with h'
        rw [← h']
        simp
      · rcases hfind : cbs.find? (fun cb => cb.start == pos) with _ | cb
        · have hnf := find_none_starts cbs pos hfind
          have hs := findBestSplitPoint_spec t cbs ms pos hwf hpos hin hnf
          rw [chunkLoop_val_split t ms cbs f pos hpos hrem hfind] at h
          rcases Option.map_eq_some'.mp h with ⟨rest, hrest, hcs⟩
          rw [← hcs, List.flatten_cons]
          rw [ih (findBestSplitPoint t pos ms cbs) rest hs.2.2.1 hrest]
          exact jsSubstring_append_drop t pos _ hs.1
        · have hp := List.find?_some hfind
          have hpeq : cb.start = pos := by simpa using hp
          have hmem := List.mem_of_find?_eq_some hfind
          have hfacts := blocksWF_mem t hwf cb hmem
          have hf2 : cb.start + 6 ≤ cb.stop := hfacts.2.1
          rw [chunkLoop_val_block t ms cbs f pos cb hpos hrem hfind] at h
          rcases Option.map_eq_some'.mp h with ⟨rest, hrest, hcs⟩
          rw [← hcs, List.flatten_cons]
          rw [ih cb.stop rest (isInside_stop t hwf hmem) hrest]
          rw [jsSubstring_append_drop t cb.start cb.stop (by omega), hpeq]
    · rw [chunkLoop_val_done t ms cbs f pos hpos] at h
      injection h with h'
      rw [← h']
      have hd : t.drop pos = [] := List.drop_eq_nil_of_le (by omega)
      rw [hd]
      rfl

/-- Helper: with positive chunk size the loop terminates within
`length - pos` steps (the JavaScript loop always advances). -/
theorem chunkLoop_total (t : List Char) (ms : Nat) (cbs : List CodeBlock)
    (hwf : blocksWF t 0 cbs) (hms : 1 ≤ ms) :
    ∀ (fuel pos : Nat),
      isInsideCodeBlock pos cbs = false →
      t.length - pos < fuel →
      (chunkLoop t ms cbs fuel pos).isSome := by
  intro fuel
  induction fuel with
  | zero => intro pos _ hlt; omega
  | succ f ih =>
    intro pos hin hlt
    by_cases hpos : pos < t.length
    · by_cases hrem : (t.drop pos).length ≤ ms
      · rw [chunkLoop_val_last t ms cbs f pos hpos hrem]
        rfl
      · rcases hfind : cbs.find? (fun cb => cb.start == pos) with _ | cb
        · have hnf := find_none_starts cbs pos hfind
          have hs := findBestSplitPoint_spec t cbs ms pos hwf hpos hin hnf
          have hlt2 : pos < findBestSplitPoint t pos ms cbs := hs.2.2.2 hms
          have hle2 : findBestSplitPoint t pos ms cbs ≤ t.length :=
            le_trans hs.2.1 (min_le_right _ _)
          rw [chunkLoop_val_split t ms cbs f pos hpos hrem hfind]
          rw [Option.isSome_map']
          exact ih (findBestSplitPoint t pos ms cbs) hs.2.2.1 (by omega)
        · have hpeq : cb.start = pos := by
            have hp := List.find?_some hfind
            simpa using hp
          have hmem := List.mem_of_find?_eq_some hfind
          have hfacts := blocksWF_mem t hwf cb hmem
          have hf2 : cb.start + 6 ≤ cb.stop := hfacts.2.1
          have hf3 : cb.stop ≤ t.length := hfacts.2.2
          rw [chunkLoop_val_block t ms cbs f pos cb hpos hrem hfind]
          rw [Option.isSome_map']
          exact ih cb.stop (isInside_stop t hwf hmem) (by omega)
    · rw [chunkLoop_val_done t ms cbs f pos hpos]
      rfl

/-- Helper: every chunk the loop produces is within the size bound or is a
whole code-block region. -/
theorem chunkLoop_size (t : List Char) (ms : Nat) (cbs : List CodeBlock)
    (hwf : blocksWF t 0 cbs) :
    ∀ (fuel pos : Nat) (cs : List (List Char)),
      isInsideCodeBlock pos cbs = false →
      chunkLoop t ms cbs fuel pos = some cs →
      ∀ c ∈ cs, c.length ≤ ms ∨
        ∃ cb ∈ cbs, c = jsSubstring t cb.start cb.stop := by
  intro fuel
  induction fuel with
  | zero =>
    intro pos cs _ h
    exact absurd h (by simp [chunkLoop])
  | succ f ih =>
    intro pos cs hin h c hc
    by_cases hpos : pos < t.length
    · by_cases hrem : (t.drop pos).length ≤ ms
      · rw [chunkLoop_val_last t ms cbs f pos hpos hrem] at h
        injection h with h'
        rw [← h'] at hc
        rcases List.mem_cons.mp hc with heq | hmem
        · left
          rw [heq]
          exact hrem
        · exact absurd hmem (List.not_mem_nil c)
      · rcases hfind : cbs.find? (fun cb => cb.start == pos) with _ | cb
        · have hnf := find_none_starts cbs pos hfind
          have hs := findBestSplitPoint_spec t cbs ms pos hwf hpos hin hnf
          rw [chunkLoop_val_split t ms cbs f pos hpos hrem hfind] at h
          rcases Option.map_eq_some'.mp h with ⟨rest, hrest, hcs⟩
          rw [← hcs] at hc
          rcases List.mem_cons.mp hc with heq | hmem
          · left
            rw [heq, jsSubstring_length t pos _ hs.1 (le_trans hs.2.1 (min_le_right _ _))]
            have := hs.2.1
            have h2 : findBestSplitPoint t pos ms cbs ≤ pos + ms :=
              le_trans this (min_le_left _ _)
            omega
          · exact ih (findBestSplitPoint t pos ms cbs) rest hs.2.2.1 hrest c hmem
        · have hpeq : cb.start = pos := by
            have hp := List.find?_some hfind
            simpa using hp
          have hmem := List.mem_of_find?_eq_some hfind
          rw [chunkLoop_val_block t ms cbs f pos cb hpos hrem hfind] at h
          rcases Option.map_eq_some'.mp h with ⟨rest, hrest, hcs⟩
          rw [← hcs] at hc
          rcases List.mem_cons.mp hc with heq | hmem'
          · right
            exact ⟨cb, hmem, heq⟩
          · exact ih cb.stop rest (isInside_stop t hwf hmem) hrest c hmem'
    · rw [chunkLoop_val_done t ms cbs f pos hpos] at h
      injection h with h'
      rw [← h'] at hc
      exact absurd hc (List.not_mem_nil c)

end Bridge.InputChunker

namespace Bridge.InputChunker

/-- Helper: every chunk boundary produced by the loop (the running sums of
chunk lengths, starting at the loop position) is never strictly inside a
code block. -/
theorem chunkLoop_boundaries (t : List Char) (ms : Nat) (cbs : List CodeBlock)
    (hwf : blocksWF t 0 cbs) :
    ∀ (fuel pos : Nat) (cs : List (List Char)),
      isInsideCodeBlock pos cbs = false →
      chunkLoop t ms cbs fuel pos = some cs →
      ∀ b ∈ List.scanl (fun a c => a + c.length) pos cs,
        isInsideCodeBlock b cbs = false := by
  intro fuel
  induction fuel with
  | zero =>
    intro pos cs _ h
    exact absurd h (by simp [chunkLoop])
  | succ f ih =>
    intro pos cs hin h b hb
    by_cases hpos : pos < t.length
    · by_cases hrem : (t.drop pos).length ≤ ms
      · rw [chunkLoop_val_last t ms cbs f pos hpos hrem] at h
        injection h with h'
        rw [← h', List.scanl_cons, List.scanl_nil] at hb
        have hlen : pos + (t.drop pos).length = t.length := by
          rw [List.length_drop]
          omega
        rcases List.mem_cons.mp hb with heq | hb'
        · rw [heq]
          exact hin
        · rcases List.mem_cons.mp hb' with heq' | hb''
          · rw [heq']
            show isInsideCodeBlock (pos + (t.drop pos).length) cbs = false
            rw [hlen]
            exact isInside_length t hwf
          · exact absurd hb'' (List.not_mem_nil b)
      · rcases hfind : cbs.find? (fun cb => cb.start == pos) with _ | cb
        · have hnf := find_none_starts cbs pos hfind
          have hs := findBestSplitPoint_spec t cbs ms pos hwf hpos hin hnf
          rw [chunkLoop_val_split t ms cbs f pos hpos hrem hfind] at h
          rcases Option.map_eq_some'.mp h with ⟨rest, hrest, hcs⟩
          rw [← hcs, List.scanl_cons] at hb
          rcases List.mem_cons.mp hb with heq | hb'
          · rw [heq]
            exact hin
          · have harg : pos + (jsSubstring t pos (findBestSplitPoint t pos ms cbs)).length
                = findBestSplitPoint t pos ms cbs := by
              rw [jsSubstring_length t pos _ hs.1 (le_trans hs.2.1 (min_le_right _ _))]
              have := hs.1
              omega
            rw [harg] at hb'
            exact ih (findBestSplitPoint t pos ms cbs) rest hs.2.2.1 hrest b hb'
        · have hpeq : cb.start = pos := by
            have hp := List.find?_some hfind
            simpa using hp
          have hmem := List.mem_of_find?_eq_some hfind
          have hfacts := blocksWF_mem t hwf cb hmem
          have hf2 : cb.start + 6 ≤ cb.stop := hfacts.2.1
          have hf3 : cb.stop ≤ t.length := hfacts.2.2
          rw [chunkLoop_val_block t ms cbs f pos cb hpos hrem hfind] at h
          rcases Option.map_eq_some'.mp h with ⟨rest, hrest, hcs⟩
          rw [← hcs, List.scanl_cons] at hb
          rcases List.mem_cons.mp hb with heq | hb'
          · rw [heq]
            exact hin
          · have harg : pos + (jsSubstring t cb.start cb.stop).length = cb.stop := by
              rw [jsSubstring_length t cb.start cb.stop (by omega) hf3]
              omega
            rw [harg] at hb'
            exact ih cb.stop rest (isInside_stop t hwf hmem) hrest b hb'
    · rw [chunkLoop_val_done t ms cbs f pos hpos] at h
      injection h with h'
      rw [← h', List.scanl_nil] at hb
      rcases List.mem_cons.mp hb with heq | hb'
      · rw [heq]
        exact hin
      · exact absurd hb' (List.not_mem_nil b)

/-- Helper: an oversized code-block region lying ahead of the loop position
always ends up as a chunk of its own. -/
theorem chunkLoop_reach (t : List Char) (ms : Nat) (cbs : List CodeBlock)
    (hwf : blocksWF t 0 cbs) (cb : CodeBlock) (hmem : cb ∈ cbs)
    (hbig : ms < cb.stop - cb.start) :
    ∀ (fuel pos : Nat) (cs : List (List Char)),
      isInsideCodeBlock pos cbs = false →
      pos ≤ cb.start →
      chunkLoop t ms cbs fuel pos = some cs →
      jsSubstring t cb.start cb.stop ∈ cs := by
  intro fuel
  induction fuel with
  | zero =>
    intro pos cs _ _ h
    exact absurd h (by simp [chunkLoop])
  | succ f ih =>
    intro pos cs hin hple h
    have hfacts := blocksWF_mem t hwf cb hmem
    have hf2 : cb.start + 6 ≤ cb.stop := hfacts.2.1
    have hf3 : cb.stop ≤ t.length := hfacts.2.2
    have hpos : pos < t.length := by omega
    have hrem : ¬ (t.drop pos).length ≤ ms := by
      rw [List.length_drop]
      omega
    rcases hfind : cbs.find? (fun cb => cb.start == pos) with _ | cb'
    · have hnf := find_none_starts cbs pos hfind
      have hppos : ¬ cb.start = pos := hnf cb hmem
      have hs := findBestSplitPoint_spec t cbs ms pos hwf hpos hin hnf
      rw [chunkLoop_val_split t ms cbs f pos hpos hrem hfind] at h
      rcases Option.map_eq_some'.mp h with ⟨rest, hrest, hcs⟩
      have hsp_le : findBestSplitPoint t pos ms cbs ≤ pos + ms :=
        le_trans hs.2.1 (min_le_left _ _)
      have hnotin := (isInside_eq_false_iff _ cbs).mp hs.2.2.1 cb hmem
      have hsp_start : findBestSplitPoint t pos ms cbs ≤ cb.start := by
        by_cases hlt : findBestSplitPoint t pos ms cbs < cb.stop
        · omega
        · omega
      rw [← hcs]
      exact List.mem_cons_of_mem _
        (ih (findBestSplitPoint t pos ms cbs) rest hs.2.2.1 hsp_start hrest)
    · have hpeq : cb'.start = pos := by
        have hp := List.find?_some hfind
        simpa using hp
      have hmem' := List.mem_of_find?_eq_some hfind
      rw [chunkLoop_val_block t ms cbs f pos cb' hpos hrem hfind] at h
      rcases Option.map_eq_some'.mp h with ⟨rest, hrest, hcs⟩
      by_cases heq : cb' = cb
      · subst heq
        rw [← hcs]
        exact List.mem_cons_self _ _
      · rcases blocksWF_disjoint t hwf cb' hmem' cb hmem heq with hd | hd
        · rw [← hcs]
          exact List.mem_cons_of_mem _
            (ih cb'.stop rest (isInside_stop t hwf hmem') hd hrest)
        · exfalso
          have hfacts' := blocksWF_mem t hwf cb' hmem'
          have hg : cb'.start + 6 ≤ cb'.stop := hfacts'.2.1
          omega

end Bridge.InputChunker

namespace Bridge

/-- Claim C6: for every input text and every `maxChunkSize`, concatenating
the chunks returned by `InputChunker.chunk` in order yields exactly the
original input text; moreover for every positive `maxChunkSize` the chunker
does return chunks (the fuelled loop, which returns `none` exactly on the
runs where the JavaScript loop would not terminate, always succeeds). -/
theorem c6_lossless_segmentation (text : List Char) (maxChunkSize : Nat)
    (preserveCodeBlocks : Bool) :
    (∀ cs, InputChunker.chunk text maxChunkSize preserveCodeBlocks = some cs →
      cs.flatten = text)
    ∧ (1 ≤ maxChunkSize →
        (InputChunker.chunk text maxChunkSize preserveCodeBlocks).isSome) := by
  have hwf : InputChunker.blocksWF text 0
      (if preserveCodeBlocks then InputChunker.findCodeBlocks text else []) := by
    cases preserveCodeBlocks
    · show InputChunker.blocksWF text 0 []
      trivial
    · show InputChunker.blocksWF text 0 (InputChunker.findCodeBlocks text)
      exact InputChunker.blocksWF_findCodeBlocks text
  constructor
  · intro cs h
    by_cases hneed : InputChunker.needsChunking text maxChunkSize = false
    · have hval : InputChunker.chunk text maxChunkSize preserveCodeBlocks
          = some [text] := by
        simp only [InputChunker.chunk]
        rw [if_pos hneed]
      rw [hval] at h
      injection h with h'
      rw [← h']
      simp
    · have hval : InputChunker.chunk text maxChunkSize preserveCodeBlocks
          = InputChunker.chunkLoop text maxChunkSize
              (if preserveCodeBlocks then InputChunker.findCodeBlocks text else [])
              (text.length + 1) 0 := by
        simp only [InputChunker.chunk]
        rw [if_neg hneed]
      rw [hval] at h
      have hjoin := InputChunker.chunkLoop_concat text maxChunkSize _ hwf
        (text.length + 1) 0 cs (InputChunker.isInside_zero _) h
      rw [List.drop_zero] at hjoin
      exact hjoin
  · intro hms
    by_cases hneed : InputChunker.needsChunking text maxChunkSize = false
    · have hval : InputChunker.chunk text maxChunkSize preserveCodeBlocks
          = some [text] := by
        simp only [InputChunker.chunk]
        rw [if_pos hneed]
      rw [hval]
      rfl
    · have hval : InputChunker.chunk text maxChunkSize preserveCodeBlocks
          = InputChunker.chunkLoop text maxChunkSize
              (if preserveCodeBlocks then InputChunker.findCodeBlocks text else [])
              (text.length + 1) 0 := by
        simp only [InputChunker.chunk]
        rw [if_neg hneed]
      rw [hval]
      exact InputChunker.chunkLoop_total text maxChunkSize _ hwf hms
        (text.length + 1) 0 (InputChunker.isInside_zero _) (by omega)

/-- Claim C6 witness: the theorem applied to a concrete chunked input. -/
theorem c6_lossless_segmentation_witness :
    ([['a'], ['b']] : List (List Char)).flatten = "ab".toList
    ∧ (InputChunker.chunk "ab".toList 1 true).isSome :=
  ⟨(c6_lossless_segmentation "ab".toList 1 true).1 [['a'], ['b']] (by decide),
   (c6_lossless_segmentation "ab".toList 1 true).2 (by decide)⟩

/-- Claim C7 counterexample: with an unmatched fence the even-fence-count
clause fails: chunking `"aaaa\n\n\x60\x60\x60bb"` (length 11, an opening
fence with no closer) at `maxChunkSize = 8` returns a chunk containing a
single (odd) triple-backtick marker. -/
theorem c7_counterexample :
    InputChunker.chunk "aaaa\n\n\x60\x60\x60bb".toList 8 true =
      some ["aaaa\n\n".toList, "\x60\x60\x60bb".toList]
    ∧ InputChunker.fenceCount "\x60\x60\x60bb".toList = 1
    ∧ ¬ (InputChunker.fenceCount "\x60\x60\x60bb".toList % 2 = 0) := by
  refine ⟨by decide, by decide, by decide⟩

/-- Claim C7 amended: with code-block preservation enabled, every returned
chunk either has length at most `maxChunkSize` or is exactly one whole fenced
code region; no chunk boundary falls strictly inside a fenced region (so a
fenced region is never split across two chunks); and every fenced region
larger than `maxChunkSize` appears as exactly one whole chunk of its own.
(The original claim's even-fence-marker-count clause fails for inputs with an
unmatched fence and is dropped.) -/
theorem c7_atomicity_and_size (text : List Char) (maxChunkSize : Nat)
    (cs : List (List Char))
    (hcs : InputChunker.chunk text maxChunkSize true = some cs) :
    (∀ c ∈ cs, c.length ≤ maxChunkSize ∨
      ∃ cb ∈ InputChunker.findCodeBlocks text,
        c = InputChunker.jsSubstring text cb.start cb.stop)
    ∧ (∀ b ∈ List.scanl (fun a c => a + c.length) 0 cs,
        InputChunker.isInsideCodeBlock b (InputChunker.findCodeBlocks text) = false)
    ∧ (∀ cb ∈ InputChunker.findCodeBlocks text, maxChunkSize < cb.stop - cb.start →
        InputChunker.jsSubstring text cb.start cb.stop ∈ cs) := by
  have hwf := InputChunker.blocksWF_findCodeBlocks text
  by_cases hneed : InputChunker.needsChunking text maxChunkSize = false
  · have hlen : ¬ text.length > maxChunkSize := by
      simpa [InputChunker.needsChunking] using hneed
    have hval : InputChunker.chunk text maxChunkSize true = some [text] := by
      simp only [InputChunker.chunk]
      rw [if_pos hneed]
    rw [hval] at hcs
    injection hcs with h'
    refine ⟨?_, ?_, ?_⟩
    · intro c hc
      rw [← h'] at hc
      rcases List.mem_cons.mp hc with heq | hmem
      · left
        rw [heq]
        omega
      · exact absurd hmem (List.not_mem_nil c)
    · intro b hb
      rw [← h', List.scanl_cons, List.scanl_nil] at hb
      rcases List.mem_cons.mp hb with heq | hb'
      · rw [heq]
        exact InputChunker.isInside_zero _
      · rcases List.mem_cons.mp hb' with heq' | hb''
        · rw [heq']
          show InputChunker.isInsideCodeBlock (0 + text.length)
            (InputChunker.findCodeBlocks text) = false
          rw [Nat.zero_add]
          exact InputChunker.isInside_length text hwf
        · exact absurd hb'' (List.not_mem_nil b)
    · intro cb hcb hbig
      exfalso
      have hfacts := InputChunker.blocksWF_mem text hwf cb hcb
      have h1 : cb.stop ≤ text.length := hfacts.2.2
      omega
  · have hval : InputChunker.chunk text maxChunkSize true
        = InputChunker.chunkLoop text maxChunkSize (InputChunker.findCodeBlocks text)
            (text.length + 1) 0 := by
      simp only [InputChunker.chunk]
      rw [if_neg hneed]
      simp
    rw [hval] at hcs
    refine ⟨?_, ?_, ?_⟩
    · exact InputChunker.chunkLoop_size text maxChunkSize _ hwf (text.length + 1) 0 cs
        (InputChunker.isInside_zero _) hcs
    · exact InputChunker.chunkLoop_boundaries text maxChunkSize _ hwf (text.length + 1) 0 cs
        (InputChunker.isInside_zero _) hcs
    · intro cb hcb hbig
      exact InputChunker.chunkLoop_reach text maxChunkSize _ hwf cb hcb hbig
        (text.length + 1) 0 cs (InputChunker.isInside_zero _) (Nat.zero_le _) hcs

/-- Claim C7 amended witness: the size-bound component at a concrete chunked
input. -/
theorem c7_atomicity_and_size_witness :
    (['a'] : List Char).length ≤ 1 ∨
      ∃ cb ∈ InputChunker.findCodeBlocks "ab".toList,
        (['a'] : List Char) = InputChunker.jsSubstring "ab".toList cb.start cb.stop :=
  (c7_atomicity_and_size "ab".toList 1 [['a'], ['b']] (by decide)).1 ['a'] (by decide)

end Bridge
